import Mathlib

/-!
openNDS `http_microhttpd_utils.c`: byte-buffer transcoders.

A shallow embedding of the five transcoders of `src/http_microhttpd_utils.c`
(`htmlentityencode`, `uh_urldecode`, `uh_urlencode`, `b64_encode`,
`uh_b64decode`) and theorems about them.

Modelling conventions.

* A byte is a natural number; an input `src` of length `slen` is a
  `List Nat` whose length is `slen`, each element the value `0..255` of the
  byte in memory (theorems that need it assume `IsBytes src`).  Whether
  `char` is signed is left to the implementation by C.  It only shows in
  `b64_encode`, which promotes `src[i]` to `int` and shifts it: that function
  takes the signedness as the parameter `signedChar`.  The other functions
  compare bytes, mask them or pass them to `<ctype.h>`, with the same result
  either way.
* `int` values (`blen`, return values) are integers; loop counters that the
  code never makes negative while they are used as indices are naturals.
  All counters stay below `max slen blen + 5`, so no 32-bit wrap-around is
  modelled for them.  The `unsigned int` accumulator of `uh_b64decode` does
  wrap and is reduced modulo `2^32`.
* The output buffer is not passed in: a call yields its return value and
  the ordered log of its stores `buf[idx] = val`.  `store init log` is the
  memory after the call, `readBuf mem n` its first `n` bytes.
* Each `for` loop is a function recursive on a fuel counter that yields
  `none` when the fuel runs out; the entry points pass enough fuel, and
  the theorems prove that they return `some` result.
* `isalnum` and `isxdigit` are those of the "C" locale.
* The `debug(...)` calls only log and are not modelled.
-/

namespace OpenNDS

/-! ## Memory model -/

/-- Result of a call: the returned `int` and the ordered log of stores
`buf[idx] = val` the call performed. -/
structure Out where
  ret : Int
  writes : List (Nat × Nat)
  deriving DecidableEq, Repr

/-- Memory after performing the logged stores, in order, on `mem`. -/
def store (mem : Nat → Nat) : List (Nat × Nat) → Nat → Nat
  | [] => mem
  | (k, v) :: ws => store (fun a => if a = k then v else mem a) ws

/-- First `n` bytes of a memory. -/
def readBuf (mem : Nat → Nat) (n : Nat) : List Nat :=
  (List.range n).map mem

/-- Stores of the bytes `bs` at consecutive indices from `start` on. -/
def seqWrites (start : Nat) : List Nat → List (Nat × Nat)
  | [] => []
  | b :: bs => (start, b) :: seqWrites (start + 1) bs

/-- Every element is an unsigned byte value. -/
def IsBytes (s : List Nat) : Prop := ∀ b ∈ s, b < 256

instance (s : List Nat) : Decidable (IsBytes s) := by
  unfold IsBytes; infer_instance

/-! ## `<ctype.h>` in the "C" locale -/

/-- C `isdigit`. -/
def isdigit (c : Nat) : Bool := 48 ≤ c && c ≤ 57

/-- C `isalpha` ("C" locale). -/
def isalpha (c : Nat) : Bool := (65 ≤ c && c ≤ 90) || (97 ≤ c && c ≤ 122)

/-- C `isalnum` ("C" locale). -/
def isalnum (c : Nat) : Bool := isalpha c || isdigit c

/-- C `isxdigit`: `0-9`, `A-F`, `a-f`. -/
def isxdigit (c : Nat) : Bool :=
  isdigit c || (65 ≤ c && c ≤ 70) || (97 ≤ c && c ≤ 102)

/-! ## `htmlentityencode` (source lines 27-100) -/

/-- State in which a loop was left: the counter `i`, the value of `len`
(an `int`: `htmlentityencode` and `uh_urlencode` set it to `-1` before
`break`), and the stores performed. -/
structure LoopEnd where
  i : Nat
  len : Int
  writes : List (Nat × Nat)
  deriving DecidableEq, Repr

/-- The `for` loop of `htmlentityencode`, lines 32-96.
Codes: 34 `"`, 35 `#`, 38 `&`, 39 apostrophe, 43 `+`, 60 `<`, 62 `>`,
59 `;`, 48.. the digits. -/
def htmlentityencode_loop (blen : Int) (src : List Nat) :
    Nat → Nat → Nat → List (Nat × Nat) → Option LoopEnd
  | 0, _, _, _ => none
  | fuel + 1, i, len, w =>
    if i < src.length ∧ (len : Int) < blen then
      if (len : Int) + 5 ≤ blen then
        let c := src.getD i 0
        if c = 34 then
          htmlentityencode_loop blen src fuel (i + 1) (len + 5)
            (w ++ [(len, 38), (len + 1, 35), (len + 2, 51), (len + 3, 52), (len + 4, 59)])
        else if c = 35 then
          htmlentityencode_loop blen src fuel (i + 1) (len + 5)
            (w ++ [(len, 38), (len + 1, 35), (len + 2, 51), (len + 3, 53), (len + 4, 59)])
        else if c = 38 then
          htmlentityencode_loop blen src fuel (i + 1) (len + 5)
            (w ++ [(len, 38), (len + 1, 35), (len + 2, 51), (len + 3, 56), (len + 4, 59)])
        else if c = 39 then
          htmlentityencode_loop blen src fuel (i + 1) (len + 5)
            (w ++ [(len, 38), (len + 1, 35), (len + 2, 51), (len + 3, 57), (len + 4, 59)])
        else if c = 43 then
          htmlentityencode_loop blen src fuel (i + 1) (len + 5)
            (w ++ [(len, 38), (len + 1, 35), (len + 2, 52), (len + 3, 51), (len + 4, 59)])
        else if c = 60 then
          htmlentityencode_loop blen src fuel (i + 1) (len + 5)
            (w ++ [(len, 38), (len + 1, 35), (len + 2, 54), (len + 3, 48), (len + 4, 59)])
        else if c = 62 then
          htmlentityencode_loop blen src fuel (i + 1) (len + 5)
            (w ++ [(len, 38), (len + 1, 35), (len + 2, 54), (len + 3, 50), (len + 4, 59)])
        else
          htmlentityencode_loop blen src fuel (i + 1) (len + 1) (w ++ [(len, c)])
      else
        some ⟨i, -1, w⟩
    else
      some ⟨i, len, w⟩

/-- `int htmlentityencode(char *buf, int blen, const char *src, int slen)`
with `slen = src.length`: the loop, then `return (i == slen) ? len : -1`. -/
def htmlentityencode (blen : Int) (src : List Nat) : Option Out :=
  match htmlentityencode_loop blen src (src.length + 1) 0 0 [] with
  | none => none
  | some e => some ⟨if e.i = src.length then e.len else -1, e.writes⟩

/-! ## `uh_urldecode` (source lines 106-133) -/

/-- The macro `hex(x)` of `uh_urldecode`, lines 111-114.  It is only applied
to bytes that passed `isxdigit`, where none of the subtractions goes below
zero. -/
def hex (x : Nat) : Nat :=
  if x ≤ 57 then x - 48 else if x ≤ 70 then x - 65 + 10 else x - 97 + 10

/-- How the loop of `uh_urldecode` ends: by `return -2` from inside the
loop, or by leaving the loop. -/
inductive DecEnd where
  | malformed (writes : List (Nat × Nat))
  | left (i len : Nat) (writes : List (Nat × Nat))
  deriving DecidableEq, Repr

/-- The `for` loop of `uh_urldecode`, lines 116-128 (37 is `%`).  The store
of line 126 keeps the low 8 bits (`(char)` cast). -/
def uh_urldecode_loop (blen : Int) (src : List Nat) :
    Nat → Nat → Nat → List (Nat × Nat) → Option DecEnd
  | 0, _, _, _ => none
  | fuel + 1, i, len, w =>
    if i < src.length ∧ (len : Int) < blen then
      if src.getD i 0 ≠ 37 then
        uh_urldecode_loop blen src fuel (i + 1) (len + 1) (w ++ [(len, src.getD i 0)])
      else if i + 2 ≥ src.length ∨ ¬ isxdigit (src.getD (i + 1) 0)
          ∨ ¬ isxdigit (src.getD (i + 2) 0) then
        some (.malformed w)
      else
        uh_urldecode_loop blen src fuel (i + 2 + 1) (len + 1)
          (w ++ [(len, (16 * hex (src.getD (i + 1) 0) + hex (src.getD (i + 2) 0)) % 256)])
    else
      some (.left i len w)

/-- `int uh_urldecode(char *buf, int blen, const char *src, int slen)` with
`slen = src.length`: the loop, then `buf[len] = 0` and
`return (i == slen) ? len : -1`. -/
def uh_urldecode (blen : Int) (src : List Nat) : Option Out :=
  match uh_urldecode_loop blen src (src.length + 1) 0 0 [] with
  | none => none
  | some (.malformed w) => some ⟨-2, w⟩
  | some (.left i len w) =>
    some ⟨if i = src.length then (len : Int) else -1, w ++ [(len, 0)]⟩

/-! ## `uh_urlencode` (source lines 139-165) -/

/-- The table `hex[] = "0123456789abcdef"` of `uh_urlencode`, line 143. -/
def hexchars : List Nat :=
  [48, 49, 50, 51, 52, 53, 54, 55, 56, 57, 97, 98, 99, 100, 101, 102]

/-- The `for` loop of `uh_urlencode`, lines 145-161.
Codes: 45 `-`, 95 `_`, 46 `.`, 126 `~`, 37 `%`. -/
def uh_urlencode_loop (blen : Int) (src : List Nat) :
    Nat → Nat → Nat → List (Nat × Nat) → Option LoopEnd
  | 0, _, _, _ => none
  | fuel + 1, i, len, w =>
    if i < src.length ∧ (len : Int) < blen then
      let c := src.getD i 0
      if isalnum c ∨ c = 45 ∨ c = 95 ∨ c = 46 ∨ c = 126 then
        uh_urlencode_loop blen src fuel (i + 1) (len + 1) (w ++ [(len, c)])
      else if (len : Int) + 3 ≤ blen then
        uh_urlencode_loop blen src fuel (i + 1) (len + 3)
          (w ++ [(len, 37), (len + 1, hexchars.getD ((c >>> 4) &&& 15) 0),
                 (len + 2, hexchars.getD (c &&& 15) 0)])
      else
        some ⟨i, -1, w⟩
    else
      some ⟨i, len, w⟩

/-- `int uh_urlencode(char *buf, int blen, const char *src, int slen)` with
`slen = src.length`: the loop, then `return (i == slen) ? len : -1`. -/
def uh_urlencode (blen : Int) (src : List Nat) : Option Out :=
  match uh_urlencode_loop blen src (src.length + 1) 0 0 [] with
  | none => none
  | some e => some ⟨if e.i = src.length then e.len else -1, e.writes⟩

/-! ## `b64_encode` (source lines 168-206) -/

/-- The table `b64chars[]` of `b64_encode`, line 173: `A-Z`, `a-z`, `0-9`,
`+`, `/`. -/
def b64chars : List Nat :=
  [65, 66, 67, 68, 69, 70, 71, 72, 73, 74, 75, 76, 77, 78, 79, 80, 81, 82, 83,
   84, 85, 86, 87, 88, 89, 90,
   97, 98, 99, 100, 101, 102, 103, 104, 105, 106, 107, 108, 109, 110, 111, 112,
   113, 114, 115, 116, 117, 118, 119, 120, 121, 122,
   48, 49, 50, 51, 52, 53, 54, 55, 56, 57, 43, 47]

/-- Value of the `char` holding the byte `b` after promotion to `int`, given
as the 32-bit two's-complement pattern of that `int`: the byte itself, or,
when `char` is signed and the byte is `0x80` or more, the sign-extended
`0xFFFFFF00 + b`. -/
def charToInt (signedChar : Bool) (b : Nat) : Nat :=
  if signedChar = true ∧ b ≥ 128 then b + 4294967040 else b

/-- The `for` loop of `b64_encode`, lines 177-201 (61 is `=`).  The `int v` is
kept as its 32-bit two's-complement pattern: `src[i]` is promoted by
`charToInt`, `v << 8` keeps the low 32 bits of the shifted pattern (what
compilers emit; ISO C leaves the left shift of a negative `int` undefined),
`|` is bitwise, and `(v >> k) & 0x3F` reads the bits `k..k+5` of the pattern,
which for `k ≤ 18` are the same under an arithmetic and a logical shift. -/
def b64_encode_loop (signedChar : Bool) (blen : Int) (src : List Nat) :
    Nat → Nat → Nat → List (Nat × Nat) → Option LoopEnd
  | 0, _, _, _ => none
  | fuel + 1, i, len, w =>
    if i < src.length then
      if (len : Int) + 4 ≤ blen then
        let v := charToInt signedChar (src.getD i 0)
        let v := if i + 1 < src.length
          then (v <<< 8) % 4294967296 ||| charToInt signedChar (src.getD (i + 1) 0)
          else (v <<< 8) % 4294967296
        let v := if i + 2 < src.length
          then (v <<< 8) % 4294967296 ||| charToInt signedChar (src.getD (i + 2) 0)
          else (v <<< 8) % 4294967296
        b64_encode_loop signedChar blen src fuel (i + 3) (len + 4)
          (w ++ [(len, b64chars.getD ((v >>> 18) &&& 0x3F) 0),
                 (len + 1, b64chars.getD ((v >>> 12) &&& 0x3F) 0),
                 (len + 2, if i + 1 < src.length then b64chars.getD ((v >>> 6) &&& 0x3F) 0
                           else 61),
                 (len + 3, if i + 2 < src.length then b64chars.getD (v &&& 0x3F) 0
                           else 61)])
      else
        some ⟨i, len, w⟩
    else
      some ⟨i, len, w⟩

/-- `int b64_encode(char *buf, int blen, const char *src, int slen)` with
`slen = src.length`, on a target where `char` is signed (`signedChar = true`)
or unsigned: the loop, then `return (i == slen) ? (len + 4) : -1`. -/
def b64_encode (signedChar : Bool) (blen : Int) (src : List Nat) : Option Out :=
  match b64_encode_loop signedChar blen src (src.length + 1) 0 0 [] with
  | none => none
  | some e => some ⟨if e.i = src.length then e.len + 4 else -1, e.writes⟩

/-! ## `uh_b64decode` (source lines 208-250) -/

/-- The chain of tests on `cin`, lines 219-232: the 6-bit value of an
accepted byte, `none` for a byte that takes the final `continue`.
Codes: 48-57 digits, 65-90 `A-Z`, 97-122 `a-z`, 43 `+`, 47 `/`, 61 `=`. -/
def b64cin (cin : Nat) : Option Nat :=
  if cin ≥ 48 ∧ cin ≤ 57 then some (cin - 48 + 52)
  else if cin ≥ 65 ∧ cin ≤ 90 then some (cin - 65)
  else if cin ≥ 97 ∧ cin ≤ 122 then some (cin - 97 + 26)
  else if cin = 43 then some 62
  else if cin = 47 then some 63
  else if cin = 61 then some 0
  else none

/-- The `for` loop of `uh_b64decode`, lines 216-245, over the memory object
`str`; it gives the final `len` and the stores.  `cout` is an
`unsigned int`, kept modulo `2^32`; the three stores keep the low 8 bits
(`(char)` casts).  Besides running out of fuel, the result is `none` when
the loop reads `str[i]` outside `str`. -/
def uh_b64decode_loop (blen : Int) (str : List Nat) (slen : Int) :
    Nat → Nat → Nat → Nat → List (Nat × Nat) → Option (Nat × List (Nat × Nat))
  | 0, _, _, _, _ => none
  | fuel + 1, i, len, cout, w =>
    if (i : Int) ≤ slen then
      match str.get? i with
      | none => none
      | some c =>
        if c ≠ 0 then
          match b64cin c with
          | none => uh_b64decode_loop blen str slen fuel (i + 1) len cout w
          | some cin =>
            let cout := ((cout <<< 6) ||| cin) % 2 ^ 32
            if i % 4 ≠ 3 then
              uh_b64decode_loop blen str slen fuel (i + 1) len cout w
            else if (len : Int) + 3 ≥ blen then
              some (len, w)
            else
              uh_b64decode_loop blen str slen fuel (i + 1) (len + 3) cout
                (w ++ [(len, (cout >>> 16) % 256), (len + 1, (cout >>> 8) % 256),
                       (len + 2, cout % 256)])
        else
          some (len, w)
    else
      some (len, w)

/-- `int uh_b64decode(char *buf, int blen, const void *src, int slen)`: the
loop, then `buf[len++] = 0; return len`. -/
def uh_b64decode (blen : Int) (str : List Nat) (slen : Int) : Option Out :=
  match uh_b64decode_loop blen str slen (str.length + 1) 0 0 0 [] with
  | none => none
  | some (len, w) => some ⟨(len : Int) + 1, w ++ [(len, 0)]⟩

/-! ## Reference encodings, written from the specification -/

/-- Unreserved set of the URL encoder: ASCII letters, ASCII digits, `-`,
`_`, `.`, `~`. -/
def spec_unreserved (c : Nat) : Bool :=
  (65 ≤ c && c ≤ 90) || (97 ≤ c && c ≤ 122) || (48 ≤ c && c ≤ 57) ||
    c == 45 || c == 95 || c == 46 || c == 126

/-- Lowercase hexadecimal digit (`0-9`, `a-f`) of a value below 16. -/
def spec_hexdigit (n : Nat) : Nat := if n < 10 then 48 + n else 97 + (n - 10)

/-- Unit the URL encoder emits for one byte: the byte itself when it is
unreserved, else `%` and the two lowercase hex digits of its value, high
nibble first. -/
def spec_urlUnit (c : Nat) : List Nat :=
  if spec_unreserved c then [c] else [37, spec_hexdigit (c / 16), spec_hexdigit (c % 16)]

/-- In-order concatenation of the URL units of the bytes. -/
def spec_urlencode : List Nat → List Nat
  | [] => []
  | c :: cs => spec_urlUnit c ++ spec_urlencode cs

/-- Number of bytes outside the unreserved set. -/
def escapedCount (s : List Nat) : Nat := (s.filter (fun c => !spec_unreserved c)).length

/-- Encoded length of the first `t` bytes under the URL encoding. -/
def urlLen (src : List Nat) (t : Nat) : Nat := (spec_urlencode (src.take t)).length

/-- The loop of `uh_urldecode` as a recursion on the input still to be read
(`src` from index `i` on); `uh_urldecode_loop_eq_run` proves it equal to
`uh_urldecode_loop`. -/
def urldecRun (blen : Int) : List Nat → Nat → Nat → List (Nat × Nat) → DecEnd
  | [], i, len, w => .left i len w
  | c :: rest, i, len, w =>
    if (len : Int) < blen then
      if c ≠ 37 then
        urldecRun blen rest (i + 1) (len + 1) (w ++ [(len, c)])
      else
        match rest with
        | h :: l :: rest' =>
          if isxdigit h = true ∧ isxdigit l = true then
            urldecRun blen rest' (i + 2 + 1) (len + 1) (w ++ [(len, (16 * hex h + hex l) % 256)])
          else .malformed w
        | _ => .malformed w
    else .left i len w

/-- Whether the left-to-right scan of a URL-encoded text, which skips the
two digits after each valid escape, reaches a `%` that is not followed,
inside the text, by two hexadecimal digits `0-9 A-F a-f`. -/
def spec_malformed : List Nat → Bool
  | [] => false
  | c :: rest =>
    if c ≠ 37 then spec_malformed rest
    else
      match rest with
      | h :: l :: rest' =>
        if ((48 ≤ h ∧ h ≤ 57) ∨ (65 ≤ h ∧ h ≤ 70) ∨ (97 ≤ h ∧ h ≤ 102)) ∧
            ((48 ≤ l ∧ l ≤ 57) ∨ (65 ≤ l ∧ l ≤ 70) ∨ (97 ≤ l ∧ l ≤ 102)) then
          spec_malformed rest'
        else true
      | _ => true

/-- The seven reserved bytes of the HTML entity encoder: `"` (34), `#` (35),
`&` (38), apostrophe (39), `+` (43), `<` (60), `>` (62). -/
def spec_htmlReserved (c : Nat) : Bool :=
  c == 34 || c == 35 || c == 38 || c == 39 || c == 43 || c == 60 || c == 62

/-- Unit the HTML entity encoder emits for one byte: for a reserved byte the
five characters `&#NN;`, `NN` the two decimal digits of its code point; any
other byte unchanged. -/
def spec_htmlUnit (c : Nat) : List Nat :=
  if spec_htmlReserved c then [38, 35, 48 + c / 10, 48 + c % 10, 59] else [c]

/-- In-order concatenation of the HTML units of the bytes. -/
def spec_htmlencode : List Nat → List Nat
  | [] => []
  | c :: cs => spec_htmlUnit c ++ spec_htmlencode cs

/-- Number of reserved bytes. -/
def reservedCount (s : List Nat) : Nat := (s.filter spec_htmlReserved).length

/-- Encoded length of the first `t` bytes under the HTML entity encoding. -/
def htmlLen (src : List Nat) (t : Nat) : Nat := (spec_htmlencode (src.take t)).length

/-- Character of the base64 alphabet `A-Z a-z 0-9 + /` for a 6-bit value. -/
def spec_b64char (n : Nat) : Nat :=
  if n < 26 then 65 + n
  else if n < 52 then 97 + (n - 26)
  else if n < 62 then 48 + (n - 52)
  else if n = 62 then 43
  else 47

/-- The four alphabet characters of a group: the bytes `a`, `b`, `c` packed
into a 24-bit accumulator, read as four 6-bit values, high bits first. -/
def spec_b64group (a b c : Nat) : List Nat :=
  [spec_b64char ((a * 65536 + b * 256 + c) / 262144),
   spec_b64char ((a * 65536 + b * 256 + c) / 4096 % 64),
   spec_b64char ((a * 65536 + b * 256 + c) / 64 % 64),
   spec_b64char ((a * 65536 + b * 256 + c) % 64)]

/-- Standard padded base64 encoding: every full group of 3 bytes gives 4
alphabet characters; a final group of 2 bytes gives 3 characters and one `=`
(61); a final group of 1 byte gives 2 characters and `==`; missing bytes
count as zero bits. -/
def spec_b64encode : List Nat → List Nat
  | [] => []
  | [a] => (spec_b64group a 0 0).take 2 ++ [61, 61]
  | [a, b] => (spec_b64group a b 0).take 3 ++ [61]
  | a :: b :: c :: rest => spec_b64group a b c ++ spec_b64encode rest

/-- 6-bit value of a character under the inverse base64 alphabet: `A-Z` to
0-25, `a-z` to 26-51, `0-9` to 52-61, `+` to 62, `/` to 63, `=` to 0; `none`
for every other byte. -/
def spec_b64val (c : Nat) : Option Nat :=
  if 65 ≤ c ∧ c ≤ 90 then some (c - 65)
  else if 97 ≤ c ∧ c ≤ 122 then some (c - 97 + 26)
  else if 48 ≤ c ∧ c ≤ 57 then some (c - 48 + 52)
  else if c = 43 then some 62
  else if c = 47 then some 63
  else if c = 61 then some 0
  else none

/-- The three bytes of a group of four 6-bit values: the values combined
into a 24-bit accumulator, emitted high byte first. -/
def spec_b64bytes (v1 v2 v3 v4 : Nat) : List Nat :=
  [(((v1 * 64 + v2) * 64 + v3) * 64 + v4) / 65536,
   (((v1 * 64 + v2) * 64 + v3) * 64 + v4) / 256 % 256,
   (((v1 * 64 + v2) * 64 + v3) * 64 + v4) % 256]

/-- Standard base64 decoding of a text made of groups of four accepted
characters (a trailing incomplete group gives nothing). -/
def spec_b64decode : List Nat → List Nat
  | c1 :: c2 :: c3 :: c4 :: rest =>
    spec_b64bytes ((spec_b64val c1).getD 0) ((spec_b64val c2).getD 0)
      ((spec_b64val c3).getD 0) ((spec_b64val c4).getD 0) ++ spec_b64decode rest
  | _ => []

/-- Value of a hexadecimal digit, upper- and lower-case alike: `0-9` to 0-9,
`A-F` and `a-f` to 10-15. -/
def spec_hexval (c : Nat) : Nat :=
  if 48 ≤ c ∧ c ≤ 57 then c - 48
  else if 65 ≤ c ∧ c ≤ 70 then c - 65 + 10
  else c - 97 + 10

/-- Decoding of a URL-encoded text, unit by unit: a byte other than `%`
stands for itself, an escape `%XY` for the byte `16 * hexval X + hexval Y`
(a `%` without two bytes after it ends the decoding). -/
def spec_urldecode : List Nat → List Nat
  | [] => []
  | c :: rest =>
    if c ≠ 37 then c :: spec_urldecode rest
    else
      match rest with
      | h :: l :: rest' => (16 * spec_hexval h + spec_hexval l) :: spec_urldecode rest'
      | _ => []

/-- Membership in the base64 alphabet `A-Z a-z 0-9 + /` (no padding). -/
def spec_b64alphabet (c : Nat) : Bool :=
  (65 ≤ c && c ≤ 90) || (97 ≤ c && c ≤ 122) || (48 ≤ c && c ≤ 57) || c == 43 || c == 47

/-- The four characters the loop of `b64_encode` stores for one group, from
the final pattern `v` of the group; `two` and `three` tell whether the group
has a second and a third byte. -/
def b64encGroup (v : Nat) (two three : Bool) : List Nat :=
  [b64chars.getD ((v >>> 18) &&& 0x3F) 0,
   b64chars.getD ((v >>> 12) &&& 0x3F) 0,
   if two then b64chars.getD ((v >>> 6) &&& 0x3F) 0 else 61,
   if three then b64chars.getD (v &&& 0x3F) 0 else 61]

/-- The text the loop of `b64_encode` stores, as a recursion on the input
still to be read; `b64_encode_loop_step` proves that each iteration of
`b64_encode_loop` stores the next four characters of it. -/
def b64encRun (signedChar : Bool) : List Nat → List Nat
  | [] => []
  | [a] =>
    b64encGroup ((((charToInt signedChar a <<< 8) % 4294967296) <<< 8) % 4294967296)
      false false
  | [a, b] =>
    b64encGroup ((((charToInt signedChar a <<< 8) % 4294967296 ||| charToInt signedChar b)
      <<< 8) % 4294967296) true false
  | a :: b :: c :: rest =>
    b64encGroup ((((charToInt signedChar a <<< 8) % 4294967296 ||| charToInt signedChar b)
      <<< 8) % 4294967296 ||| charToInt signedChar c) true true
      ++ b64encRun signedChar rest

/-- Inputs on which the sign extension of `char` cannot reach the text that
`b64_encode` stores: `char` is unsigned, or every byte at an index that is
not a multiple of 3 (the second and third byte of each group) is below
`0x80`. -/
def SignSafe (signedChar : Bool) (s : List Nat) : Prop :=
  signedChar = false ∨ ∀ i, i < s.length → i % 3 ≠ 0 → s.getD i 0 < 128

instance (signedChar : Bool) (s : List Nat) : Decidable (SignSafe signedChar s) := by
  unfold SignSafe; infer_instance

/-! ## Lemmas on the memory model -/

theorem seqWrites_append (l₁ l₂ : List Nat) :
    ∀ s, seqWrites s (l₁ ++ l₂) = seqWrites s l₁ ++ seqWrites (s + l₁.length) l₂ := by
  induction l₁ with
  | nil => intro s; simp [seqWrites]
  | cons b bs ih =>
    intro s
    have e : s + 1 + bs.length = s + (bs.length + 1) := by omega
    show (s, b) :: seqWrites (s + 1) (bs ++ l₂) = _
    rw [ih, e]
    rfl

theorem seqWrites_length (l : List Nat) : ∀ s, (seqWrites s l).length = l.length := by
  induction l with
  | nil => intro s; rfl
  | cons b bs ih => intro s; simp [seqWrites, ih]

theorem mem_seqWrites (l : List Nat) :
    ∀ s p, p ∈ seqWrites s l → s ≤ p.1 ∧ p.1 < s + l.length := by
  induction l with
  | nil => intro s p h; simp [seqWrites] at h
  | cons b bs ih =>
    intro s p h
    simp only [seqWrites, List.mem_cons] at h
    rcases h with h | h
    · subst h; simp
    · have := ih _ _ h
      simp only [List.length_cons]
      omega

theorem store_append (w₁ w₂ : List (Nat × Nat)) :
    ∀ mem, store mem (w₁ ++ w₂) = store (store mem w₁) w₂ := by
  induction w₁ with
  | nil => intro mem; rfl
  | cons p ps ih => intro mem; obtain ⟨k, v⟩ := p; simp [store, ih]

theorem store_not_written (w : List (Nat × Nat)) (a : Nat) :
    ∀ mem, (∀ p ∈ w, p.1 ≠ a) → store mem w a = mem a := by
  induction w with
  | nil => intro mem _; rfl
  | cons p ps ih =>
    intro mem h
    obtain ⟨k, v⟩ := p
    simp only [store]
    rw [ih _ (fun q hq => h q (List.mem_cons_of_mem _ hq))]
    have : k ≠ a := h (k, v) (List.mem_cons_self _ _)
    simp [Ne.symm this]

theorem store_seqWrites (l : List Nat) :
    ∀ s mem a, a < l.length → store mem (seqWrites s l) (s + a) = l.getD a 0 := by
  induction l with
  | nil => intro s mem a h; simp at h
  | cons b bs ih =>
    intro s mem a h
    simp only [seqWrites, store]
    cases a with
    | zero =>
      rw [store_not_written]
      · simp
      · intro p hp
        have := mem_seqWrites _ _ _ hp
        omega
    | succ a =>
      have h' : a < bs.length := by simpa using h
      have := ih (s + 1) (fun x => if x = s then b else mem x) a h'
      rw [show s + (a + 1) = s + 1 + a by omega, this]
      simp

/-- Reading back a buffer filled from index 0 with `l`, whatever was stored
afterwards at indices from `l.length` on. -/
theorem readBuf_store_seq (mem : Nat → Nat) (l : List Nat) (ws : List (Nat × Nat))
    (hws : ∀ p ∈ ws, l.length ≤ p.1) :
    readBuf (store mem (seqWrites 0 l ++ ws)) l.length = l := by
  apply List.ext_getElem
  · simp [readBuf]
  · intro n h₁ h₂
    simp only [readBuf, List.getElem_map, List.getElem_range]
    rw [store_append, store_not_written]
    · have := store_seqWrites l 0 mem n h₂
      rw [Nat.zero_add] at this
      rw [this, List.getD_eq_getElem _ _ h₂]
    · intro p hp
      have := hws p hp
      omega

theorem readBuf_store_seq_nil (mem : Nat → Nat) (l : List Nat) :
    readBuf (store mem (seqWrites 0 l)) l.length = l := by
  have := readBuf_store_seq mem l [] (by simp)
  simpa using this

theorem take_succ_getD (src : List Nat) (i : Nat) (h : i < src.length) :
    src.take (i + 1) = src.take i ++ [src.getD i 0] := by
  rw [List.take_succ, List.getD_eq_getElem _ _ h, List.getElem?_eq_getElem h]
  rfl

theorem getD_mem (src : List Nat) (i : Nat) (h : i < src.length) : src.getD i 0 ∈ src := by
  rw [List.getD_eq_getElem _ _ h]
  exact List.getElem_mem h


/-! ## `uh_urlencode` -/

theorem spec_urlencode_append (a b : List Nat) :
    spec_urlencode (a ++ b) = spec_urlencode a ++ spec_urlencode b := by
  induction a with
  | nil => rfl
  | cons c cs ih => simp [spec_urlencode, ih]

theorem spec_urlencode_single (c : Nat) : spec_urlencode [c] = spec_urlUnit c := by
  simp [spec_urlencode]

theorem unreserved_iff (c : Nat) :
    (isalnum c = true ∨ c = 45 ∨ c = 95 ∨ c = 46 ∨ c = 126) ↔ spec_unreserved c = true := by
  simp [isalnum, isalpha, isdigit, spec_unreserved]
  tauto

set_option maxRecDepth 100000 in
theorem hexchars_hi : ∀ c < 256, hexchars.getD ((c >>> 4) &&& 15) 0 = spec_hexdigit (c / 16) := by
  decide

set_option maxRecDepth 100000 in
theorem hexchars_lo : ∀ c < 256, hexchars.getD (c &&& 15) 0 = spec_hexdigit (c % 16) := by
  decide

theorem urlLen_succ (src : List Nat) (i : Nat) (h : i < src.length) :
    urlLen src (i + 1) = urlLen src i + (spec_urlUnit (src.getD i 0)).length := by
  simp [urlLen, take_succ_getD src i h, spec_urlencode_append, spec_urlencode_single]

theorem urlWrites_succ (src : List Nat) (i : Nat) (h : i < src.length) :
    seqWrites 0 (spec_urlencode (src.take (i + 1))) =
      seqWrites 0 (spec_urlencode (src.take i)) ++
        seqWrites (urlLen src i) (spec_urlUnit (src.getD i 0)) := by
  rw [take_succ_getD src i h, spec_urlencode_append, spec_urlencode_single, seqWrites_append]
  simp [urlLen]

theorem spec_urlUnit_length_pos (c : Nat) : 1 ≤ (spec_urlUnit c).length := by
  unfold spec_urlUnit; split <;> simp

theorem uh_urlencode_loop_run (blen : Int) (src : List Nat) (hb : IsBytes src) :
    ∀ fuel i, i ≤ src.length → src.length < i + fuel →
    ∃ j r, i ≤ j ∧ j ≤ src.length ∧
      uh_urlencode_loop blen src fuel i (urlLen src i)
          (seqWrites 0 (spec_urlencode (src.take i))) =
        some ⟨j, r, seqWrites 0 (spec_urlencode (src.take j))⟩ ∧
      (j = src.length → r = (urlLen src j : Int)) ∧
      (∀ t, i < t → t ≤ j → (urlLen src t : Int) ≤ blen) ∧
      (j < src.length → ¬ (urlLen src (j + 1) : Int) ≤ blen) := by
  intro fuel
  induction fuel with
  | zero => intro i h₁ h₂; omega
  | succ fuel ih =>
    intro i h₁ h₂
    unfold uh_urlencode_loop
    by_cases hc : i < src.length ∧ (urlLen src i : Int) < blen
    · obtain ⟨hi, hl⟩ := hc
      have hlen := urlLen_succ src i hi
      have hw := urlWrites_succ src i hi
      have hcb : src.getD i 0 < 256 := hb _ (getD_mem src i hi)
      rw [if_pos ⟨hi, hl⟩]
      simp only []
      by_cases hu : spec_unreserved (src.getD i 0) = true
      · rw [if_pos ((unreserved_iff _).2 hu)]
        have hunit : spec_urlUnit (src.getD i 0) = [src.getD i 0] := by
          rw [spec_urlUnit, if_pos hu]
        rw [hunit] at hlen hw
        simp only [seqWrites, List.length_singleton] at hlen hw
        rw [← hlen, ← hw]
        obtain ⟨j, r, hj₁, hj₂, hrun, hr, hfit, hstop⟩ := ih (i + 1) (by omega) (by omega)
        refine ⟨j, r, by omega, hj₂, hrun, hr, ?_, hstop⟩
        intro t ht₁ ht₂
        by_cases hti : t = i + 1
        · subst hti; omega
        · exact hfit t (by omega) ht₂
      · rw [if_neg (fun h => hu ((unreserved_iff _).1 h))]
        have hunit : spec_urlUnit (src.getD i 0) =
            [37, spec_hexdigit (src.getD i 0 / 16), spec_hexdigit (src.getD i 0 % 16)] := by
          rw [spec_urlUnit, if_neg hu]
        rw [hunit] at hlen hw
        simp only [seqWrites, List.length_cons, List.length_nil] at hlen hw
        by_cases h3 : (urlLen src i : Int) + 3 ≤ blen
        · rw [if_pos h3, hexchars_hi _ hcb, hexchars_lo _ hcb]
          rw [show urlLen src i + 3 = urlLen src (i + 1) by omega, ← hw]
          obtain ⟨j, r, hj₁, hj₂, hrun, hr, hfit, hstop⟩ := ih (i + 1) (by omega) (by omega)
          refine ⟨j, r, by omega, hj₂, hrun, hr, ?_, hstop⟩
          intro t ht₁ ht₂
          by_cases hti : t = i + 1
          · subst hti; omega
          · exact hfit t (by omega) ht₂
        · rw [if_neg h3]
          refine ⟨i, -1, le_refl _, h₁, rfl, ?_, ?_, ?_⟩
          · intro h; omega
          · intro t ht₁ ht₂; omega
          · intro _; omega
    · rw [if_neg hc]
      refine ⟨i, urlLen src i, le_refl _, h₁, rfl, fun _ => rfl, ?_, ?_⟩
      · intro t ht₁ ht₂; omega
      · intro hi
        have hlen := urlLen_succ src i hi
        have := spec_urlUnit_length_pos (src.getD i 0)
        have : ¬ (urlLen src i : Int) < blen := fun h => hc ⟨hi, h⟩
        omega

theorem escapedCount_cons (c : Nat) (cs : List Nat) :
    escapedCount (c :: cs) = (if spec_unreserved c = true then 0 else 1) + escapedCount cs := by
  by_cases hu : spec_unreserved c = true
  · simp [escapedCount, List.filter_cons, hu]
  · simp [escapedCount, List.filter_cons, hu]
    omega

theorem spec_urlencode_length (s : List Nat) :
    (spec_urlencode s).length = s.length + 2 * escapedCount s := by
  induction s with
  | nil => rfl
  | cons c cs ih =>
    rw [escapedCount_cons]
    simp only [spec_urlencode, List.length_append, ih, List.length_cons, spec_urlUnit]
    by_cases hu : spec_unreserved c = true
    · simp only [hu, if_true, List.length_singleton]; omega
    · have hf : spec_unreserved c = false := by simpa using hu
      simp [hf]; omega

theorem urlLen_le (src : List Nat) (t : Nat) : urlLen src t ≤ (spec_urlencode src).length := by
  have h := congrArg (fun l => (spec_urlencode l).length) (List.take_append_drop t src)
  simp only [spec_urlencode_append, List.length_append] at h
  unfold urlLen
  omega

theorem urlLen_length (src : List Nat) : urlLen src src.length = (spec_urlencode src).length := by
  simp [urlLen]

/-- Result of `uh_urlencode`: the units of the first `j` bytes are stored
from index 0 on, where every prefix up to `j` fits the capacity and the
next one does not; the call succeeds exactly when `j` is the whole input. -/
theorem uh_urlencode_run (blen : Int) (src : List Nat) (hb : IsBytes src) :
    ∃ j, j ≤ src.length ∧
      uh_urlencode blen src =
        some ⟨if j = src.length then ((spec_urlencode src).length : Int) else -1,
              seqWrites 0 (spec_urlencode (src.take j))⟩ ∧
      (∀ t, 0 < t → t ≤ j → (urlLen src t : Int) ≤ blen) ∧
      (j < src.length → ¬ (urlLen src (j + 1) : Int) ≤ blen) := by
  obtain ⟨j, r, _, hj, hrun, hr, hfit, hstop⟩ :=
    uh_urlencode_loop_run blen src hb (src.length + 1) 0 (Nat.zero_le _) (by omega)
  refine ⟨j, hj, ?_, hfit, hstop⟩
  have h0 : urlLen src 0 = 0 := rfl
  have hw0 : seqWrites 0 (spec_urlencode (src.take 0)) = [] := rfl
  rw [h0, hw0] at hrun
  unfold uh_urlencode
  rw [hrun]
  by_cases hjs : j = src.length
  · simp only [hjs, if_true]
    rw [hr hjs, hjs, urlLen_length]
  · simp only [hjs, if_false]


/-! ## `uh_urldecode` -/

theorem urldecRun_nil (blen : Int) (i len : Nat) (w : List (Nat × Nat)) :
    urldecRun blen [] i len w = .left i len w := rfl

theorem urldecRun_full (blen : Int) (c : Nat) (rest : List Nat) (i len : Nat)
    (w : List (Nat × Nat)) (h : ¬ (len : Int) < blen) :
    urldecRun blen (c :: rest) i len w = .left i len w := by
  rw [urldecRun.eq_def]; simp [h]

theorem urldecRun_plain (blen : Int) (c : Nat) (rest : List Nat) (i len : Nat)
    (w : List (Nat × Nat)) (h : (len : Int) < blen) (hc : c ≠ 37) :
    urldecRun blen (c :: rest) i len w =
      urldecRun blen rest (i + 1) (len + 1) (w ++ [(len, c)]) := by
  rw [urldecRun.eq_def]; simp [h, hc]

theorem urldecRun_escape (blen : Int) (h l : Nat) (rest : List Nat) (i len : Nat)
    (w : List (Nat × Nat)) (hlen : (len : Int) < blen)
    (hh : isxdigit h = true) (hl : isxdigit l = true) :
    urldecRun blen (37 :: h :: l :: rest) i len w =
      urldecRun blen rest (i + 2 + 1) (len + 1) (w ++ [(len, (16 * hex h + hex l) % 256)]) := by
  rw [urldecRun.eq_def]; simp [hlen, hh, hl]

theorem urldecRun_bad (blen : Int) (h l : Nat) (rest : List Nat) (i len : Nat)
    (w : List (Nat × Nat)) (hlen : (len : Int) < blen)
    (hx : ¬ (isxdigit h = true ∧ isxdigit l = true)) :
    urldecRun blen (37 :: h :: l :: rest) i len w = .malformed w := by
  rw [urldecRun.eq_def]
  simp only [hlen, if_true, ne_eq, not_true_eq_false, if_false, hx]

theorem urldecRun_short0 (blen : Int) (i len : Nat)
    (w : List (Nat × Nat)) (hlen : (len : Int) < blen) :
    urldecRun blen [37] i len w = .malformed w := by
  rw [urldecRun.eq_def]; simp [hlen]

theorem urldecRun_short1 (blen : Int) (h : Nat) (i len : Nat)
    (w : List (Nat × Nat)) (hlen : (len : Int) < blen) :
    urldecRun blen [37, h] i len w = .malformed w := by
  rw [urldecRun.eq_def]; simp [hlen]

theorem uh_urldecode_loop_eq_run (blen : Int) (src : List Nat) :
    ∀ fuel i len w, i ≤ src.length → src.length < i + fuel →
      uh_urldecode_loop blen src fuel i len w =
        some (urldecRun blen (src.drop i) i len w) := by
  intro fuel
  induction fuel with
  | zero => intro i len w h₁ h₂; omega
  | succ fuel ih =>
    intro i len w h₁ h₂
    unfold uh_urldecode_loop
    by_cases hi : i < src.length
    · have hd := List.drop_eq_getElem_cons hi
      have hg : src.getD i 0 = src[i] := List.getD_eq_getElem _ _ hi
      rw [hd, hg]
      by_cases hl : (len : Int) < blen
      · rw [if_pos ⟨hi, hl⟩]
        by_cases hc : src[i] ≠ 37
        · rw [if_pos hc, urldecRun_plain _ _ _ _ _ _ hl hc]
          exact ih (i + 1) _ _ (by omega) (by omega)
        · rw [if_neg hc]
          have hc' : src[i] = 37 := by simpa using hc
          rw [hc']
          by_cases h2 : i + 2 < src.length
          · have hd1 := List.drop_eq_getElem_cons (show i + 1 < src.length by omega)
            have hd2 := List.drop_eq_getElem_cons h2
            have hg1 : src.getD (i + 1) 0 = src[i + 1] := List.getD_eq_getElem _ _ (by omega)
            have hg2 : src.getD (i + 2) 0 = src[i + 2] := List.getD_eq_getElem _ _ h2
            rw [hd1, hd2, hg1, hg2]
            by_cases hx : isxdigit src[i + 1] = true ∧ isxdigit src[i + 2] = true
            · rw [if_neg (by simp [hx]; omega), urldecRun_escape _ _ _ _ _ _ _ hl hx.1 hx.2]
              exact ih (i + 2 + 1) _ _ (by omega) (by omega)
            · rw [if_pos (by
                by_cases ha : isxdigit src[i + 1] = true
                · right; right; exact fun hb => hx ⟨ha, hb⟩
                · right; left; exact ha), urldecRun_bad _ _ _ _ _ _ _ hl hx]
          · rw [if_pos (Or.inl (by omega))]
            by_cases h1 : i + 1 < src.length
            · have hd1 := List.drop_eq_getElem_cons h1
              have hd2 : src.drop (i + 1 + 1) = [] := List.drop_eq_nil_of_le (by omega)
              rw [hd1, hd2, urldecRun_short1 _ _ _ _ _ hl]
            · have hd1 : src.drop (i + 1) = [] := List.drop_eq_nil_of_le (by omega)
              rw [hd1, urldecRun_short0 _ _ _ _ hl]
      · rw [if_neg (fun h => hl h.2), urldecRun_full _ _ _ _ _ _ hl]
    · rw [if_neg (fun h => hi h.1), List.drop_eq_nil_of_le (by omega), urldecRun_nil]

/-- Result of `uh_urldecode` in terms of the list form of its loop. -/
theorem uh_urldecode_eq (blen : Int) (src : List Nat) :
    uh_urldecode blen src =
      match urldecRun blen src 0 0 [] with
      | .malformed w => some ⟨-2, w⟩
      | .left i len w => some ⟨if i = src.length then (len : Int) else -1, w ++ [(len, 0)]⟩ := by
  unfold uh_urldecode
  rw [uh_urldecode_loop_eq_run blen src _ 0 0 [] (Nat.zero_le _) (by omega)]
  simp only [List.drop_zero]
  cases urldecRun blen src 0 0 [] <;> rfl


/-! ## URL round trip -/

set_option maxRecDepth 100000 in
theorem hex_of_hexdigit : ∀ c < 256,
    isxdigit (spec_hexdigit (c / 16)) = true ∧ isxdigit (spec_hexdigit (c % 16)) = true ∧
      (16 * hex (spec_hexdigit (c / 16)) + hex (spec_hexdigit (c % 16))) % 256 = c := by
  decide

theorem unreserved_ne_percent (c : Nat) (h : spec_unreserved c = true) : c ≠ 37 := by
  intro hc; subst hc; revert h; decide

theorem urldecRun_encode (blen : Int) (s : List Nat) (hs : IsBytes s) :
    ∀ (tail : List Nat) (i len : Nat) (w : List (Nat × Nat)),
      ((len : Int) + s.length) ≤ blen →
      urldecRun blen (spec_urlencode s ++ tail) i len w =
        urldecRun blen tail (i + (spec_urlencode s).length) (len + s.length)
          (w ++ seqWrites len s) := by
  induction s with
  | nil => intro tail i len w _; simp [spec_urlencode, seqWrites]
  | cons c cs ih =>
    intro tail i len w hcap
    have hcs : IsBytes cs := fun b hb => hs b (List.mem_cons_of_mem _ hb)
    have hc : c < 256 := hs c (List.mem_cons_self _ _)
    have hlen : (len : Int) < blen := by
      simp only [List.length_cons] at hcap; push_cast at hcap; omega
    have hcap' : (((len + 1 : Nat) : Int) + cs.length) ≤ blen := by
      simp only [List.length_cons] at hcap; push_cast at hcap ⊢; omega
    by_cases hu : spec_unreserved c = true
    · have hunit : spec_urlUnit c = [c] := by rw [spec_urlUnit, if_pos hu]
      have e : spec_urlencode (c :: cs) ++ tail = c :: (spec_urlencode cs ++ tail) := by
        simp [spec_urlencode, hunit]
      have el : (spec_urlencode (c :: cs)).length = (spec_urlencode cs).length + 1 := by
        simp [spec_urlencode, hunit]
      rw [e, el, urldecRun_plain _ _ _ _ _ _ hlen (unreserved_ne_percent c hu),
        ih hcs _ _ _ _ hcap']
      simp only [seqWrites, List.append_assoc, List.singleton_append, List.length_cons]
      congr 1 <;> omega
    · have hunit : spec_urlUnit c = [37, spec_hexdigit (c / 16), spec_hexdigit (c % 16)] := by
        rw [spec_urlUnit, if_neg hu]
      obtain ⟨hx₁, hx₂, hv⟩ := hex_of_hexdigit c hc
      have e : spec_urlencode (c :: cs) ++ tail =
          37 :: spec_hexdigit (c / 16) :: spec_hexdigit (c % 16) ::
            (spec_urlencode cs ++ tail) := by
        simp [spec_urlencode, hunit]
      have el : (spec_urlencode (c :: cs)).length = (spec_urlencode cs).length + 3 := by
        simp [spec_urlencode, hunit]
      rw [e, el, urldecRun_escape _ _ _ _ _ _ _ hlen hx₁ hx₂, hv, ih hcs _ _ _ _ hcap']
      simp only [seqWrites, List.append_assoc, List.singleton_append, List.length_cons]
      congr 1 <;> omega

theorem escapedCount_le (s : List Nat) : escapedCount s ≤ s.length := by
  unfold escapedCount
  exact List.length_filter_le _ _

/-- Decoding the URL encoding of `s` with room for `s` yields `s`. -/
theorem uh_urldecode_encode (blen : Int) (s : List Nat) (hs : IsBytes s)
    (hcap : (s.length : Int) ≤ blen) :
    uh_urldecode blen (spec_urlencode s) =
      some ⟨s.length, seqWrites 0 s ++ [(s.length, 0)]⟩ := by
  rw [uh_urldecode_eq]
  have h := urldecRun_encode blen s hs [] 0 0 [] (by simpa using hcap)
  simp only [List.append_nil, Nat.zero_add, List.nil_append] at h
  rw [h, urldecRun_nil]
  simp

/-- C1 (URL round trip): for every byte sequence `s`, `uh_urlencode` with
capacity `blen ≥ 3 * |s|` returns some `n ≥ 0`, and `uh_urldecode` applied to
the `n` bytes it wrote, with capacity `blen2 ≥ |s| + 1`, returns `|s|` and
leaves `s` in the first `|s|` bytes of its buffer. -/
theorem url_round_trip (s : List Nat) (hs : IsBytes s) (blen blen2 : Int)
    (hblen : 3 * (s.length : Int) ≤ blen) (hblen2 : (s.length : Int) + 1 ≤ blen2)
    (init init2 : Nat → Nat) :
    ∃ o, uh_urlencode blen s = some o ∧ 0 ≤ o.ret ∧
      ∃ o2, uh_urldecode blen2 (readBuf (store init o.writes) o.ret.toNat) = some o2 ∧
        o2.ret = s.length ∧ readBuf (store init2 o2.writes) s.length = s := by
  obtain ⟨j, hj, hrun, _, hstop⟩ := uh_urlencode_run blen s hs
  have hjs : j = s.length := by
    by_contra hne
    have h1 := hstop (by omega)
    have h2 := urlLen_le s (j + 1)
    have h3 := spec_urlencode_length s
    have h4 := escapedCount_le s
    omega
  subst hjs
  rw [if_pos rfl, List.take_length] at hrun
  refine ⟨_, hrun, by simp, ?_⟩
  simp only [Int.toNat_ofNat, readBuf_store_seq_nil]
  refine ⟨_, uh_urldecode_encode blen2 s hs (by omega), rfl, ?_⟩
  exact readBuf_store_seq init2 s _ (by simp)

theorem url_round_trip_witness :
    IsBytes [97, 32, 98, 47, 99] ∧ 3 * (([97, 32, 98, 47, 99] : List Nat).length : Int) ≤ 15 ∧
      (([97, 32, 98, 47, 99] : List Nat).length : Int) + 1 ≤ 6 ∧
      ∃ o, uh_urlencode 15 [97, 32, 98, 47, 99] = some o ∧ 0 ≤ o.ret ∧
        ∃ o2, uh_urldecode 6 (readBuf (store (fun _ => 0) o.writes) o.ret.toNat) = some o2 ∧
          o2.ret = ([97, 32, 98, 47, 99] : List Nat).length ∧
          readBuf (store (fun _ => 0) o2.writes) ([97, 32, 98, 47, 99] : List Nat).length =
            [97, 32, 98, 47, 99] :=
  ⟨by decide, by decide, by decide,
   url_round_trip [97, 32, 98, 47, 99] (by decide) 15 6 (by decide) (by decide)
     (fun _ => 0) (fun _ => 0)⟩


/-! ## `uh_urlencode`: characterisation -/

/-- C9 (`uh_urlencode` characterisation): with `R = slen + 2 * m`, `m` the
number of bytes outside the unreserved set, and a capacity `blen ≥ 0`: if
`blen ≥ R` the call returns `R` and the first `R` bytes of `buf` are the
in-order concatenation of the units (the byte itself when unreserved, else
`%` and its two lowercase hex digits, high nibble first); if `blen < R` the
call returns `-1` and every index it stores to is below `blen`. -/
theorem uh_urlencode_characterisation (blen : Int) (src : List Nat) (hb : IsBytes src)
    (h0 : 0 ≤ blen) :
    ∃ o, uh_urlencode blen src = some o ∧
      (((src.length + 2 * escapedCount src : Nat) : Int) ≤ blen →
        o.ret = ((src.length + 2 * escapedCount src : Nat) : Int) ∧
        ∀ init, readBuf (store init o.writes) (src.length + 2 * escapedCount src) =
          spec_urlencode src) ∧
      (blen < ((src.length + 2 * escapedCount src : Nat) : Int) →
        o.ret = -1 ∧ ∀ p ∈ o.writes, (p.1 : Int) < blen) := by
  obtain ⟨j, hj, hrun, hfit, hstop⟩ := uh_urlencode_run blen src hb
  have hR := spec_urlencode_length src
  refine ⟨_, hrun, ?_, ?_⟩
  · intro hcap
    have hjs : j = src.length := by
      by_contra hne
      have h1 := hstop (by omega)
      have h2 := urlLen_le src (j + 1)
      omega
    subst hjs
    simp only [if_true, List.take_length]
    refine ⟨by rw [hR], ?_⟩
    intro init
    rw [← hR]
    exact readBuf_store_seq_nil init _
  · intro hcap
    have hjs : j ≠ src.length := by
      intro hjs
      subst hjs
      by_cases hz : src.length = 0
      · have : escapedCount src ≤ src.length := escapedCount_le src
        omega
      · have h1 := hfit src.length (by omega) (le_refl _)
        rw [urlLen_length] at h1
        omega
    simp only [hjs, if_false, true_and]
    intro p hp
    have h1 := mem_seqWrites _ _ _ hp
    by_cases hz : j = 0
    · subst hz
      simp [spec_urlencode] at h1
    · have h2 := hfit j (by omega) (le_refl _)
      unfold urlLen at h2
      omega

/-- The literal scenario of C9: `a b/c` with 9 bytes of capacity gives
`a%20b%2fc`. -/
theorem uh_urlencode_characterisation_witness :
    IsBytes [97, 32, 98, 47, 99] ∧ (0 : Int) ≤ 9 ∧
    ∃ o, uh_urlencode 9 [97, 32, 98, 47, 99] = some o ∧ o.ret = 9 ∧
      readBuf (store (fun _ => 0) o.writes) 9 = [97, 37, 50, 48, 98, 37, 50, 102, 99] :=
  ⟨by decide, by decide,
   (uh_urlencode_characterisation 9 [97, 32, 98, 47, 99] (by decide) (by decide)).imp
     (fun _ h => ⟨h.1, (h.2.1 (by decide)).1, (h.2.1 (by decide)).2 (fun _ => 0)⟩)⟩

/-! ## `uh_urldecode`: malformed input -/

theorem isxdigit_iff (h : Nat) :
    isxdigit h = true ↔ ((48 ≤ h ∧ h ≤ 57) ∨ (65 ≤ h ∧ h ≤ 70) ∨ (97 ≤ h ∧ h ≤ 102)) := by
  simp [isxdigit, isdigit, or_assoc]

theorem spec_malformed_plain (c : Nat) (rest : List Nat) (hc : c ≠ 37) :
    spec_malformed (c :: rest) = spec_malformed rest := by
  rw [spec_malformed.eq_def]; simp [hc]

theorem spec_malformed_escape (h l : Nat) (rest : List Nat)
    (hx : isxdigit h = true ∧ isxdigit l = true) :
    spec_malformed (37 :: h :: l :: rest) = spec_malformed rest := by
  rw [spec_malformed.eq_def]
  simp only [ne_eq, not_true_eq_false, if_false]
  rw [if_pos ⟨(isxdigit_iff h).1 hx.1, (isxdigit_iff l).1 hx.2⟩]

theorem spec_malformed_bad (h l : Nat) (rest : List Nat)
    (hx : ¬ (isxdigit h = true ∧ isxdigit l = true)) :
    spec_malformed (37 :: h :: l :: rest) = true := by
  rw [spec_malformed.eq_def]
  simp only [ne_eq, not_true_eq_false, if_false]
  rw [if_neg (fun hh => hx ⟨(isxdigit_iff h).2 hh.1, (isxdigit_iff l).2 hh.2⟩)]

/-- With at least as much room left as input left, the loop of `uh_urldecode`
is never cut short: it ends in `return -2` when the scan meets a malformed
escape, and else reads the whole input, storing at most one byte per input
byte. -/
theorem urldecRun_roomy (blen : Int) :
    ∀ (n : Nat) (rest : List Nat) (i len : Nat) (w : List (Nat × Nat)),
      rest.length ≤ n → ((len : Int) + rest.length) ≤ blen →
      (spec_malformed rest = true ∧ ∃ w', urldecRun blen rest i len w = .malformed w') ∨
      (spec_malformed rest = false ∧ ∃ len' w',
        urldecRun blen rest i len w = .left (i + rest.length) len' w' ∧
        len' ≤ len + rest.length) := by
  intro n
  induction n with
  | zero =>
    intro rest i len w hn _
    have : rest = [] := List.length_eq_zero.1 (by omega)
    subst this
    exact Or.inr ⟨rfl, len, w, rfl, by simp⟩
  | succ n ih =>
    intro rest i len w hn hcap
    match rest, hn, hcap with
    | [], _, _ => exact Or.inr ⟨rfl, len, w, rfl, by simp⟩
    | c :: rest, hn, hcap =>
      simp only [List.length_cons] at hn hcap
      push_cast at hcap
      have hlen : (len : Int) < blen := by omega
      by_cases hc : c ≠ 37
      · rw [urldecRun_plain _ _ _ _ _ _ hlen hc]
        have hm := spec_malformed_plain c rest hc
        rw [hm]
        rcases ih rest (i + 1) (len + 1) (w ++ [(len, c)]) (by omega)
            (by push_cast; omega) with ⟨h1, w', h2⟩ | ⟨h1, len', w', h2, h3⟩
        · exact Or.inl ⟨h1, w', h2⟩
        · refine Or.inr ⟨h1, len', w', ?_, ?_⟩
          · rw [h2, List.length_cons]; congr 1; omega
          · rw [List.length_cons]; omega
      · have hc' : c = 37 := by simpa using hc
        subst hc'
        match rest, hn, hcap with
        | [], _, _ => exact Or.inl ⟨rfl, w, urldecRun_short0 _ _ _ _ hlen⟩
        | [h], _, _ => exact Or.inl ⟨rfl, w, urldecRun_short1 _ _ _ _ _ hlen⟩
        | h :: l :: rest, hn, hcap =>
          simp only [List.length_cons] at hn hcap
          push_cast at hcap
          by_cases hx : isxdigit h = true ∧ isxdigit l = true
          · rw [urldecRun_escape _ _ _ _ _ _ _ hlen hx.1 hx.2]
            have hm := spec_malformed_escape h l rest hx
            rw [hm]
            rcases ih rest (i + 2 + 1) (len + 1)
                (w ++ [(len, (16 * hex h + hex l) % 256)]) (by omega)
                (by push_cast; omega) with ⟨h1, w', h2⟩ | ⟨h1, len', w', h2, h3⟩
            · exact Or.inl ⟨h1, w', h2⟩
            · refine Or.inr ⟨h1, len', w', ?_, ?_⟩
              · rw [h2]; simp only [List.length_cons]; congr 1; omega
              · simp only [List.length_cons]; omega
          · have hm := spec_malformed_bad h l rest hx
            exact Or.inl ⟨hm, w, urldecRun_bad _ _ _ _ _ _ _ hlen hx⟩

/-- C10 (`uh_urldecode` malformed input): with capacity `blen ≥ slen`,
`uh_urldecode` returns `-2` if and only if the left-to-right scan, which
skips the two digits after each valid escape, reaches a `%` that is not
followed inside the input by two hexadecimal digits. -/
theorem uh_urldecode_malformed_iff (blen : Int) (src : List Nat)
    (hcap : (src.length : Int) ≤ blen) :
    ∃ o, uh_urldecode blen src = some o ∧ (o.ret = -2 ↔ spec_malformed src = true) := by
  rw [uh_urldecode_eq]
  rcases urldecRun_roomy blen src.length src 0 0 [] (le_refl _) (by simpa using hcap)
    with ⟨h1, w', h2⟩ | ⟨h1, len', w', h2, _⟩
  · rw [h2]
    exact ⟨_, rfl, by simp [h1]⟩
  · rw [h2]
    refine ⟨_, rfl, ?_⟩
    simp only [Nat.zero_add, if_true, h1]
    constructor
    · intro h; omega
    · intro h; simp at h

/-- The literal scenarios of C10: `%2g` (non-hex digit) and `%2` (truncated)
both return `-2`. -/
theorem uh_urldecode_malformed_iff_witness :
    ((([37, 50, 103] : List Nat).length : Int) ≤ 3) ∧
    ((([37, 50] : List Nat).length : Int) ≤ 2) ∧
    (∃ o, uh_urldecode 3 [37, 50, 103] = some o ∧ o.ret = -2) ∧
    (∃ o, uh_urldecode 2 [37, 50] = some o ∧ o.ret = -2) :=
  ⟨by decide, by decide,
   (uh_urldecode_malformed_iff 3 [37, 50, 103] (by decide)).imp
     (fun _ h => ⟨h.1, h.2.2 (by decide)⟩),
   (uh_urldecode_malformed_iff 2 [37, 50] (by decide)).imp
     (fun _ h => ⟨h.1, h.2.2 (by decide)⟩)⟩

/-- C3 (`uh_urldecode` stays inside the supplied capacity), evaluated at the
input `"a"` with `blen = 1`, a buffer sized exactly to the decoded length:
the call returns 1 after storing `a` at index 0 and the terminator of line
130 at index 1, which is not below `blen`. -/
theorem uh_urldecode_terminator_at_blen :
    uh_urldecode 1 [97] = some ⟨1, [(0, 97), (1, 0)]⟩ := by
  decide


/-! ## `htmlentityencode` -/

theorem spec_htmlencode_append (a b : List Nat) :
    spec_htmlencode (a ++ b) = spec_htmlencode a ++ spec_htmlencode b := by
  induction a with
  | nil => rfl
  | cons c cs ih => simp [spec_htmlencode, ih]

theorem spec_htmlencode_single (c : Nat) : spec_htmlencode [c] = spec_htmlUnit c := by
  simp [spec_htmlencode]

theorem spec_htmlUnit_length (c : Nat) :
    (spec_htmlUnit c).length = if spec_htmlReserved c = true then 5 else 1 := by
  unfold spec_htmlUnit; split <;> simp

theorem reservedCount_cons (c : Nat) (cs : List Nat) :
    reservedCount (c :: cs) = (if spec_htmlReserved c = true then 1 else 0) + reservedCount cs := by
  by_cases hu : spec_htmlReserved c = true
  · simp [reservedCount, List.filter_cons, hu]
    omega
  · simp [reservedCount, List.filter_cons, hu]

theorem spec_htmlencode_length (s : List Nat) :
    (spec_htmlencode s).length = s.length + 4 * reservedCount s := by
  induction s with
  | nil => rfl
  | cons c cs ih =>
    rw [reservedCount_cons]
    simp only [spec_htmlencode, List.length_append, ih, List.length_cons, spec_htmlUnit_length]
    split <;> omega

theorem htmlLen_succ (src : List Nat) (i : Nat) (h : i < src.length) :
    htmlLen src (i + 1) = htmlLen src i + (spec_htmlUnit (src.getD i 0)).length := by
  simp [htmlLen, take_succ_getD src i h, spec_htmlencode_append, spec_htmlencode_single]

theorem htmlWrites_succ (src : List Nat) (i : Nat) (h : i < src.length) :
    seqWrites 0 (spec_htmlencode (src.take (i + 1))) =
      seqWrites 0 (spec_htmlencode (src.take i)) ++
        seqWrites (htmlLen src i) (spec_htmlUnit (src.getD i 0)) := by
  rw [take_succ_getD src i h, spec_htmlencode_append, spec_htmlencode_single, seqWrites_append]
  simp [htmlLen]

theorem htmlLen_length (src : List Nat) :
    htmlLen src src.length = (spec_htmlencode src).length := by
  simp [htmlLen]

theorem htmlLen_mono (src : List Nat) (a b : Nat) (h : a ≤ b) : htmlLen src a ≤ htmlLen src b := by
  have e : src.take a = (src.take b).take a := by
    rw [List.take_take, Nat.min_eq_left h]
  have h2 := congrArg (fun l => (spec_htmlencode l).length)
    (List.take_append_drop a (src.take b))
  simp only [spec_htmlencode_append, List.length_append] at h2
  unfold htmlLen
  rw [e]
  omega

/-- One iteration of the loop of `htmlentityencode` that passes both capacity
tests stores the unit of `src[i]`. -/
theorem htmlentityencode_loop_step (blen : Int) (src : List Nat) (fuel i len : Nat)
    (w : List (Nat × Nat)) (hi : i < src.length) (h5 : (len : Int) + 5 ≤ blen) :
    htmlentityencode_loop blen src (fuel + 1) i len w =
      htmlentityencode_loop blen src fuel (i + 1) (len + (spec_htmlUnit (src.getD i 0)).length)
        (w ++ seqWrites len (spec_htmlUnit (src.getD i 0))) := by
  rw [htmlentityencode_loop, if_pos ⟨hi, by omega⟩, if_pos h5]
  simp only []
  by_cases h34 : src.getD i 0 = 34
  · rw [if_pos h34, h34]; rfl
  rw [if_neg h34]
  by_cases h35 : src.getD i 0 = 35
  · rw [if_pos h35, h35]; rfl
  rw [if_neg h35]
  by_cases h38 : src.getD i 0 = 38
  · rw [if_pos h38, h38]; rfl
  rw [if_neg h38]
  by_cases h39 : src.getD i 0 = 39
  · rw [if_pos h39, h39]; rfl
  rw [if_neg h39]
  by_cases h43 : src.getD i 0 = 43
  · rw [if_pos h43, h43]; rfl
  rw [if_neg h43]
  by_cases h60 : src.getD i 0 = 60
  · rw [if_pos h60, h60]; rfl
  rw [if_neg h60]
  by_cases h62 : src.getD i 0 = 62
  · rw [if_pos h62, h62]; rfl
  rw [if_neg h62]
  have hr : spec_htmlReserved (src.getD i 0) = false := by
    simp only [spec_htmlReserved, Bool.or_eq_false_iff, beq_eq_false_iff_ne]
    exact ⟨⟨⟨⟨⟨⟨h34, h35⟩, h38⟩, h39⟩, h43⟩, h60⟩, h62⟩
  have hunit : spec_htmlUnit (src.getD i 0) = [src.getD i 0] := by
    rw [spec_htmlUnit, hr]; rfl
  rw [hunit]
  rfl

theorem htmlentityencode_loop_run (blen : Int) (src : List Nat) :
    ∀ fuel i, i ≤ src.length → src.length < i + fuel →
    ∃ j r, i ≤ j ∧ j ≤ src.length ∧
      htmlentityencode_loop blen src fuel i (htmlLen src i)
          (seqWrites 0 (spec_htmlencode (src.take i))) =
        some ⟨j, r, seqWrites 0 (spec_htmlencode (src.take j))⟩ ∧
      (j = src.length → r = (htmlLen src j : Int)) ∧
      (∀ t, i ≤ t → t < j → (htmlLen src t : Int) + 5 ≤ blen) ∧
      (j < src.length → ¬ (htmlLen src j : Int) + 5 ≤ blen) := by
  intro fuel
  induction fuel with
  | zero => intro i h₁ h₂; omega
  | succ fuel ih =>
    intro i h₁ h₂
    by_cases hi : i < src.length
    · by_cases h5 : (htmlLen src i : Int) + 5 ≤ blen
      · rw [htmlentityencode_loop_step blen src fuel i _ _ hi h5, ← htmlLen_succ src i hi,
          ← htmlWrites_succ src i hi]
        obtain ⟨j, r, hj₁, hj₂, hrun, hr, hfit, hstop⟩ := ih (i + 1) (by omega) (by omega)
        refine ⟨j, r, by omega, hj₂, hrun, hr, ?_, hstop⟩
        intro t ht₁ ht₂
        by_cases hti : t = i
        · subst hti; exact h5
        · exact hfit t (by omega) ht₂
      · unfold htmlentityencode_loop
        by_cases hl : (htmlLen src i : Int) < blen
        · rw [if_pos ⟨hi, hl⟩, if_neg h5]
          refine ⟨i, -1, le_refl _, h₁, rfl, ?_, ?_, fun _ => h5⟩
          · intro h; omega
          · intro t ht₁ ht₂; omega
        · rw [if_neg (fun h => hl h.2)]
          refine ⟨i, htmlLen src i, le_refl _, h₁, rfl, fun _ => rfl, ?_, fun _ => h5⟩
          intro t ht₁ ht₂; omega
    · unfold htmlentityencode_loop
      rw [if_neg (fun h => hi h.1)]
      refine ⟨i, htmlLen src i, le_refl _, h₁, rfl, fun _ => rfl, ?_, ?_⟩
      · intro t ht₁ ht₂; omega
      · intro h; omega

/-- Result of `htmlentityencode`: the units of the first `j` bytes are stored
from index 0 on, where each of them found 5 bytes of room and the next one
did not; the call succeeds exactly when `j` is the whole input. -/
theorem htmlentityencode_run (blen : Int) (src : List Nat) :
    ∃ j, j ≤ src.length ∧
      htmlentityencode blen src =
        some ⟨if j = src.length then ((spec_htmlencode src).length : Int) else -1,
              seqWrites 0 (spec_htmlencode (src.take j))⟩ ∧
      (∀ t, t < j → (htmlLen src t : Int) + 5 ≤ blen) ∧
      (j < src.length → ¬ (htmlLen src j : Int) + 5 ≤ blen) := by
  obtain ⟨j, r, _, hj, hrun, hr, hfit, hstop⟩ :=
    htmlentityencode_loop_run blen src (src.length + 1) 0 (Nat.zero_le _) (by omega)
  refine ⟨j, hj, ?_, fun t ht => hfit t (Nat.zero_le _) ht, hstop⟩
  have h0 : htmlLen src 0 = 0 := rfl
  have hw0 : seqWrites 0 (spec_htmlencode (src.take 0)) = [] := rfl
  rw [h0, hw0] at hrun
  unfold htmlentityencode
  rw [hrun]
  by_cases hjs : j = src.length
  · simp only [hjs, if_true]
    rw [hr hjs, hjs, htmlLen_length]
  · simp only [hjs, if_false]


/-- C6 (`htmlentityencode` output): whenever the call returns `n ≥ 0`,
`n = slen + 4 * k`, `k` the number of reserved bytes of the input, and the
first `n` bytes of `buf` are the in-order concatenation of one unit per
input byte: `&#NN;` with the decimal code point for each of the seven
reserved bytes, the byte itself for every other byte. -/
theorem htmlentityencode_output (blen : Int) (src : List Nat) :
    ∃ o, htmlentityencode blen src = some o ∧
      (0 ≤ o.ret →
        o.ret = ((src.length + 4 * reservedCount src : Nat) : Int) ∧
        ∀ init, readBuf (store init o.writes) (src.length + 4 * reservedCount src) =
          spec_htmlencode src) := by
  obtain ⟨j, hj, hrun, _, _⟩ := htmlentityencode_run blen src
  refine ⟨_, hrun, ?_⟩
  by_cases hjs : j = src.length
  · subst hjs
    simp only [if_true, List.take_length]
    intro _
    have hR := spec_htmlencode_length src
    refine ⟨by rw [hR], ?_⟩
    intro init
    rw [← hR]
    exact readBuf_store_seq_nil init _
  · simp only [hjs, if_false]
    intro h
    omega

/-- The literal scenario of C6: `<b>"x"</b>` with 34 bytes of capacity gives
`&#60;b&#62;&#34;x&#34;&#60;/b&#62;`. -/
theorem htmlentityencode_output_witness :
    ∃ o, htmlentityencode 34 [60, 98, 62, 34, 120, 34, 60, 47, 98, 62] = some o ∧
      0 ≤ o.ret ∧ o.ret = 34 ∧
      readBuf (store (fun _ => 0) o.writes) 34 =
        [38, 35, 54, 48, 59, 98, 38, 35, 54, 50, 59, 38, 35, 51, 52, 59, 120,
         38, 35, 51, 52, 59, 38, 35, 54, 48, 59, 47, 98, 38, 35, 54, 50, 59] := by
  obtain ⟨o, ho, h⟩ := htmlentityencode_output 34 [60, 98, 62, 34, 120, 34, 60, 47, 98, 62]
  have hev : htmlentityencode 34 [60, 98, 62, 34, 120, 34, 60, 47, 98, 62] =
      some ⟨34, seqWrites 0 [38, 35, 54, 48, 59, 98, 38, 35, 54, 50, 59, 38, 35, 51, 52, 59,
        120, 38, 35, 51, 52, 59, 38, 35, 54, 48, 59, 47, 98, 38, 35, 54, 50, 59]⟩ := by
    decide
  have ho' : o.ret = 34 := by
    rw [hev] at ho
    injection ho with ho
    rw [← ho]
  have hpos : 0 ≤ o.ret := by omega
  exact ⟨o, ho, hpos, ho', (h hpos).2 (fun _ => 0)⟩

/-- C7, as stated, fails: `abc` has no reserved byte, so its exact encoded
size is 3, yet with `blen = 3` the call returns `-1` and stores nothing. -/
theorem htmlentityencode_exact_size_fails :
    ((([97, 98, 99] : List Nat).length + 4 * reservedCount [97, 98, 99] : Nat) : Int) ≤ 3 ∧
      htmlentityencode 3 [97, 98, 99] = some ⟨-1, []⟩ := by
  decide

/-- C7, amended: `htmlentityencode` succeeds exactly when the input is empty
or the capacity is at least 5 more than the encoded size of the input
without its last byte (every unit, plain or entity, is stored only when 5
bytes of room remain), and it then returns `slen + 4 * k`. -/
theorem htmlentityencode_success_iff (blen : Int) (src : List Nat) :
    ∃ o, htmlentityencode blen src = some o ∧
      (0 ≤ o.ret ↔ (src = [] ∨ (htmlLen src (src.length - 1) : Int) + 5 ≤ blen)) ∧
      (0 ≤ o.ret → o.ret = ((src.length + 4 * reservedCount src : Nat) : Int)) := by
  obtain ⟨j, hj, hrun, hfit, hstop⟩ := htmlentityencode_run blen src
  refine ⟨_, hrun, ?_, ?_⟩
  · by_cases hjs : j = src.length
    · subst hjs
      simp only [if_true, Int.natCast_nonneg, true_iff]
      by_cases hnil : src = []
      · exact Or.inl hnil
      · right
        have hpos : 0 < src.length := List.length_pos.2 hnil
        exact hfit (src.length - 1) (by omega)
    · simp only [hjs, if_false]
      constructor
      · intro h; omega
      · rintro (h | h)
        · exfalso
          apply hjs
          subst h
          simpa using hj
        · have h1 := hstop (by omega)
          have h2 := htmlLen_mono src j (src.length - 1) (by omega)
          omega
  · by_cases hjs : j = src.length
    · simp only [hjs, if_true]
      intro _
      rw [spec_htmlencode_length]
    · simp only [hjs, if_false]
      intro h; omega

/-- C8 (`htmlentityencode` overflow): with a capacity `0 ≤ blen < slen + 4 * k`
the call returns `-1`, every index it stores to is below `blen`, and what it
stored are, from index 0 on, the whole units of a prefix of the input. -/
theorem htmlentityencode_overflow (blen : Int) (src : List Nat) (h0 : 0 ≤ blen)
    (hsmall : blen < ((src.length + 4 * reservedCount src : Nat) : Int)) :
    ∃ o, htmlentityencode blen src = some o ∧ o.ret = -1 ∧
      (∀ p ∈ o.writes, (p.1 : Int) < blen) ∧
      ∃ j, j ≤ src.length ∧ o.writes = seqWrites 0 (spec_htmlencode (src.take j)) := by
  obtain ⟨j, hj, hrun, hfit, hstop⟩ := htmlentityencode_run blen src
  have hR := spec_htmlencode_length src
  have hjs : j ≠ src.length := by
    intro hjs
    subst hjs
    by_cases hz : src.length = 0
    · have hnil : src = [] := List.length_eq_zero.1 hz
      subst hnil
      simp [reservedCount] at hsmall
      omega
    · have h1 := hfit (src.length - 1) (by omega)
      have h2 := htmlLen_succ src (src.length - 1) (by omega)
      rw [show src.length - 1 + 1 = src.length by omega, htmlLen_length,
        spec_htmlUnit_length] at h2
      split at h2 <;> omega
  refine ⟨_, hrun, by simp [hjs], ?_, j, hj, rfl⟩
  intro p hp
  have h1 := mem_seqWrites _ _ _ hp
  by_cases hz : j = 0
  · subst hz
    simp [spec_htmlencode] at h1
  · have h2 := hfit (j - 1) (by omega)
    have h3 := htmlLen_succ src (j - 1) (by omega)
    rw [show j - 1 + 1 = j by omega, spec_htmlUnit_length] at h3
    unfold htmlLen at h2 h3
    split at h3 <;> omega

theorem htmlentityencode_overflow_witness :
    (0 : Int) ≤ 6 ∧
    (6 : Int) < ((([97, 60, 98] : List Nat).length + 4 * reservedCount [97, 60, 98] : Nat) : Int) ∧
    ∃ o, htmlentityencode 6 [97, 60, 98] = some o ∧ o.ret = -1 ∧
      (∀ p ∈ o.writes, (p.1 : Int) < 6) ∧
      ∃ j, j ≤ ([97, 60, 98] : List Nat).length ∧
        o.writes = seqWrites 0 (spec_htmlencode (([97, 60, 98] : List Nat).take j)) :=
  ⟨by decide, by decide, htmlentityencode_overflow 6 [97, 60, 98] (by decide) (by decide)⟩


/-! ## `b64_encode` -/

theorem and63 (x : Nat) : x &&& 0x3F = x % 64 :=
  Nat.and_pow_two_sub_one_eq_mod x 6

set_option maxRecDepth 100000 in
theorem b64chars_eq : ∀ n < 64, b64chars.getD n 0 = spec_b64char n := by
  decide

theorem spec_b64encode_length : ∀ (n : Nat) (s : List Nat), s.length ≤ n →
    (spec_b64encode s).length = 4 * ((s.length + 2) / 3) := by
  intro n
  induction n using Nat.strong_induction_on with
  | _ n ih =>
    intro s hs
    match s, hs with
    | [], _ => rfl
    | [a], _ => simp [spec_b64encode, spec_b64group]
    | [a, b], _ => simp [spec_b64encode, spec_b64group]
    | a :: b :: c :: rest, hs =>
      simp only [List.length_cons] at hs
      simp only [spec_b64encode, List.length_append, List.length_cons,
        ih (n - 3) (by omega) rest (by omega), spec_b64group, List.length_nil]
      omega

theorem b64encRun_length (sg : Bool) : ∀ (n : Nat) (s : List Nat), s.length ≤ n →
    (b64encRun sg s).length = 4 * ((s.length + 2) / 3) := by
  intro n
  induction n using Nat.strong_induction_on with
  | _ n ih =>
    intro s hs
    match s, hs with
    | [], _ => rfl
    | [a], _ => simp [b64encRun, b64encGroup]
    | [a, b], _ => simp [b64encRun, b64encGroup]
    | a :: b :: c :: rest, hs =>
      simp only [List.length_cons] at hs
      simp only [b64encRun, List.length_append, List.length_cons,
        ih (n - 3) (by omega) rest (by omega), b64encGroup, List.length_nil]
      omega

theorem b64encRun_append (sg : Bool) : ∀ (n : Nat) (a b : List Nat), a.length = 3 * n →
    b64encRun sg (a ++ b) = b64encRun sg a ++ b64encRun sg b := by
  intro n
  induction n with
  | zero =>
    intro a b h
    have : a = [] := List.length_eq_zero.1 (by omega)
    subst this; rfl
  | succ n ih =>
    intro a b h
    match a, h with
    | x :: y :: z :: rest, h =>
      simp only [List.length_cons] at h
      show b64encRun sg (x :: y :: z :: (rest ++ b)) = _
      simp only [b64encRun, ih rest b (by omega), List.append_assoc]

/-- One iteration of the loop of `b64_encode` that passes the capacity test
stores the four characters of the next group. -/
theorem b64_encode_loop_step (sg : Bool) (blen : Int) (src : List Nat)
    (fuel i len : Nat) (w : List (Nat × Nat)) (hi : i < src.length)
    (h4 : (len : Int) + 4 ≤ blen) :
    b64_encode_loop sg blen src (fuel + 1) i len w =
      b64_encode_loop sg blen src fuel (i + 3) (len + 4)
        (w ++ seqWrites len (b64encRun sg ((src.drop i).take 3))) := by
  rw [b64_encode_loop, if_pos hi, if_pos h4]
  simp only []
  have hd := List.drop_eq_getElem_cons hi
  have hg : src.getD i 0 = src[i] := List.getD_eq_getElem _ _ hi
  by_cases h1 : i + 1 < src.length
  · have hd1 := List.drop_eq_getElem_cons h1
    have hg1 : src.getD (i + 1) 0 = src[i + 1] := List.getD_eq_getElem _ _ h1
    by_cases h2 : i + 2 < src.length
    · have hd2 := List.drop_eq_getElem_cons h2
      have hg2 : src.getD (i + 2) 0 = src[i + 2] := List.getD_eq_getElem _ _ h2
      simp only [if_pos h1, if_pos h2, hg, hg1, hg2]
      rw [hd, hd1, hd2]
      rfl
    · have hd2 : src.drop (i + 1 + 1) = [] := List.drop_eq_nil_of_le (by omega)
      simp only [if_pos h1, if_neg h2, hg, hg1]
      rw [hd, hd1, hd2]
      rfl
  · have hd1 : src.drop (i + 1) = [] := List.drop_eq_nil_of_le (by omega)
    have h2 : ¬ i + 2 < src.length := by omega
    simp only [if_neg h1, if_neg h2, hg]
    rw [hd, hd1]
    rfl

theorem b64_take_succ (sg : Bool) (src : List Nat) (g : Nat) (h : 3 * g ≤ src.length) :
    b64encRun sg (src.take (3 * (g + 1))) =
      b64encRun sg (src.take (3 * g)) ++ b64encRun sg ((src.drop (3 * g)).take 3) := by
  rw [show 3 * (g + 1) = 3 * g + 3 by ring, List.take_add,
    b64encRun_append sg g _ _ (by simp; omega)]

theorem b64_take_length (sg : Bool) (src : List Nat) (g : Nat)
    (h : 3 * g ≤ src.length + 2) :
    (b64encRun sg (src.take (3 * g))).length = 4 * g := by
  rw [b64encRun_length sg _ _ (le_refl _), List.length_take]
  omega

theorem b64_encode_loop_run (sg : Bool) (blen : Int) (src : List Nat) :
    ∀ fuel g, 3 * g ≤ src.length + 2 → src.length + 3 ≤ 3 * g + 3 * fuel →
    ∃ G, g ≤ G ∧ 3 * G ≤ src.length + 2 ∧
      b64_encode_loop sg blen src fuel (3 * g) (4 * g)
          (seqWrites 0 (b64encRun sg (src.take (3 * g)))) =
        some ⟨3 * G, ((4 * G : Nat) : Int), seqWrites 0 (b64encRun sg (src.take (3 * G)))⟩ ∧
      (∀ t, g ≤ t → t < G → 3 * t < src.length ∧ ((4 * t : Nat) : Int) + 4 ≤ blen) ∧
      (3 * G < src.length → ¬ ((4 * G : Nat) : Int) + 4 ≤ blen) := by
  intro fuel
  induction fuel with
  | zero => intro g h₁ h₂; omega
  | succ fuel ih =>
    intro g h₁ h₂
    by_cases hi : 3 * g < src.length
    · by_cases h4 : ((4 * g : Nat) : Int) + 4 ≤ blen
      · rw [b64_encode_loop_step sg blen src fuel _ _ _ hi h4]
        have hw : seqWrites 0 (b64encRun sg (src.take (3 * g))) ++
            seqWrites (4 * g) (b64encRun sg ((src.drop (3 * g)).take 3)) =
            seqWrites 0 (b64encRun sg (src.take (3 * (g + 1)))) := by
          rw [b64_take_succ sg src g (by omega), seqWrites_append,
            b64_take_length sg src g (by omega), Nat.zero_add]
        rw [hw, show 3 * g + 3 = 3 * (g + 1) by ring, show 4 * g + 4 = 4 * (g + 1) by ring]
        obtain ⟨G, hG₁, hG₂, hrun, hfit, hstop⟩ := ih (g + 1) (by omega) (by omega)
        refine ⟨G, by omega, hG₂, hrun, ?_, hstop⟩
        intro t ht₁ ht₂
        by_cases htg : t = g
        · subst htg; exact ⟨hi, h4⟩
        · exact hfit t (by omega) ht₂
      · rw [b64_encode_loop, if_pos hi, if_neg h4]
        refine ⟨g, le_refl _, h₁, rfl, ?_, fun _ => h4⟩
        intro t ht₁ ht₂; omega
    · rw [b64_encode_loop, if_neg hi]
      refine ⟨g, le_refl _, h₁, rfl, ?_, fun h => absurd h hi⟩
      intro t ht₁ ht₂; omega

/-- Result of `b64_encode`: `G` groups are stored from index 0 on, the text
of the first `3 * G` bytes; each of them found 4 bytes of room, and the loop
went on to the end of the input unless the next group found none.  The value
returned is `4 * G + 4` when `3 * G = slen` and `-1` otherwise. -/
theorem b64_encode_run (sg : Bool) (blen : Int) (src : List Nat) :
    ∃ G, 3 * G ≤ src.length + 2 ∧
      b64_encode sg blen src =
        some ⟨if 3 * G = src.length then ((4 * G : Nat) : Int) + 4 else -1,
              seqWrites 0 (b64encRun sg (src.take (3 * G)))⟩ ∧
      (∀ t, t < G → 3 * t < src.length ∧ ((4 * t : Nat) : Int) + 4 ≤ blen) ∧
      (3 * G < src.length → ¬ ((4 * G : Nat) : Int) + 4 ≤ blen) := by
  obtain ⟨G, _, hG, hrun, hfit, hstop⟩ :=
    b64_encode_loop_run sg blen src (src.length + 1) 0 (by omega) (by omega)
  refine ⟨G, hG, ?_, fun t ht => hfit t (Nat.zero_le _) ht, hstop⟩
  unfold b64_encode
  simp only [Nat.mul_zero, List.take_zero] at hrun
  have hw0 : seqWrites 0 (b64encRun sg []) = [] := rfl
  rw [hw0] at hrun
  rw [hrun]


/-- With room for the whole text, `b64_encode` stores the text of the whole
input from index 0 on. -/
theorem b64_encode_roomy (sg : Bool) (blen : Int) (src : List Nat)
    (hcap : ((4 * ((src.length + 2) / 3) : Nat) : Int) ≤ blen) :
    ∃ r, b64_encode sg blen src = some ⟨r, seqWrites 0 (b64encRun sg src)⟩ ∧
      r = if src.length % 3 = 0 then ((4 * (src.length / 3) : Nat) : Int) + 4 else -1 := by
  obtain ⟨G, hG, hrun, hfit, hstop⟩ := b64_encode_run sg blen src
  have hend : src.length ≤ 3 * G := by
    by_contra hlt
    have := hstop (by omega)
    omega
  rw [List.take_of_length_le hend] at hrun
  refine ⟨_, hrun, ?_⟩
  by_cases h3 : src.length % 3 = 0
  · rw [if_pos (by omega), if_pos h3]
    congr 2; omega
  · rw [if_neg (by omega), if_neg h3]

theorem charToInt_safe (sg : Bool) (b : Nat) (h : sg = true → b < 128) :
    charToInt sg b = b := by
  unfold charToInt
  split
  · rename_i hc; have := h hc.1; omega
  · rfl

theorem charToInt_cases (sg : Bool) (a : Nat) :
    charToInt sg a = a ∨ charToInt sg a = a + 4294967040 := by
  unfold charToInt
  split
  · exact Or.inr rfl
  · exact Or.inl rfl

theorem shl8_pattern (x : Nat) : (x <<< 8) % 4294967296 = 2 ^ 8 * (x % 16777216) := by
  rw [Nat.shiftLeft_eq]
  omega

theorem or_low8 (q y : Nat) (h : y < 256) : 2 ^ 8 * q ||| y = 2 ^ 8 * q + y :=
  (Nat.mul_add_lt_is_or (i := 8) (b := y) (by simpa using h) q).symm

/-- Low 24 bits of the pattern of a full group whose second and third byte
are promoted without sign extension. -/
theorem b64_pattern3 (A a b c : Nat) (hA : A = a ∨ A = a + 4294967040)
    (ha : a < 256) (hb : b < 256) (hc : c < 256) :
    ((((A <<< 8) % 4294967296 ||| b) <<< 8) % 4294967296 ||| c) % 16777216 =
      a * 65536 + b * 256 + c := by
  rw [shl8_pattern A, or_low8 _ _ hb, shl8_pattern, or_low8 _ _ hc]
  rcases hA with h | h <;> subst h <;> omega

theorem b64_pattern2 (A a b : Nat) (hA : A = a ∨ A = a + 4294967040)
    (ha : a < 256) (hb : b < 256) :
    ((((A <<< 8) % 4294967296 ||| b) <<< 8) % 4294967296) % 16777216 =
      a * 65536 + b * 256 + 0 := by
  rw [shl8_pattern A, or_low8 _ _ hb, shl8_pattern]
  rcases hA with h | h <;> subst h <;> omega

theorem b64_pattern1 (A a : Nat) (hA : A = a ∨ A = a + 4294967040) (ha : a < 256) :
    ((((A <<< 8) % 4294967296) <<< 8) % 4294967296) % 16777216 = a * 65536 + 0 * 256 + 0 := by
  rw [shl8_pattern A, shl8_pattern]
  rcases hA with h | h <;> subst h <;> omega

/-- The characters stored for a group only depend on the low 24 bits of the
pattern. -/
theorem b64encGroup_eq (v acc : Nat) (two three : Bool) (h : v % 16777216 = acc) :
    b64encGroup v two three =
      [spec_b64char (acc / 262144), spec_b64char (acc / 4096 % 64),
       if two then spec_b64char (acc / 64 % 64) else 61,
       if three then spec_b64char (acc % 64) else 61] := by
  simp only [b64encGroup, and63, Nat.shiftRight_eq_div_pow]
  rw [b64chars_eq _ (Nat.mod_lt _ (by decide)), b64chars_eq _ (Nat.mod_lt _ (by decide)),
    b64chars_eq _ (Nat.mod_lt _ (by decide)), b64chars_eq _ (Nat.mod_lt _ (by decide))]
  have e1 : v / 2 ^ 18 % 64 = acc / 262144 := by omega
  have e2 : v / 2 ^ 12 % 64 = acc / 4096 % 64 := by omega
  have e3 : v / 2 ^ 6 % 64 = acc / 64 % 64 := by omega
  have e4 : v % 64 = acc % 64 := by omega
  rw [e1, e2, e3, e4]

theorem SignSafe_tail (sg : Bool) (a b c : Nat) (rest : List Nat)
    (h : SignSafe sg (a :: b :: c :: rest)) :
    (sg = true → b < 128) ∧ (sg = true → c < 128) ∧ SignSafe sg rest := by
  rcases h with h | h
  · subst h
    exact ⟨fun h => absurd h (by decide), fun h => absurd h (by decide), Or.inl rfl⟩
  · refine ⟨fun _ => ?_, fun _ => ?_, Or.inr ?_⟩
    · simpa using h 1 (by simp) (by decide)
    · simpa using h 2 (by simp) (by decide)
    · intro i hi h3
      have := h (i + 3) (by simp; omega) (by omega)
      simpa using this

theorem SignSafe_second (sg : Bool) (a b : Nat) (h : SignSafe sg [a, b]) :
    sg = true → b < 128 := by
  intro hs
  rcases h with h | h
  · rw [h] at hs; exact absurd hs (by decide)
  · simpa using h 1 (by simp) (by decide)

/-- On bytes whose promotion never sign-extends into the text, the text that
`b64_encode` stores is the standard padded base64 encoding. -/
theorem b64encRun_eq_spec (sg : Bool) : ∀ (n : Nat) (s : List Nat), s.length ≤ n →
    IsBytes s → SignSafe sg s → b64encRun sg s = spec_b64encode s := by
  intro n
  induction n using Nat.strong_induction_on with
  | _ n ih =>
    intro s hs hb hsafe
    match s, hs, hb, hsafe with
    | [], _, _, _ => rfl
    | [a], _, hb, _ =>
      have ha : a < 256 := hb a (by simp)
      simp only [b64encRun, spec_b64encode, spec_b64group, List.take_succ_cons, List.take_zero]
      rw [b64encGroup_eq _ _ false false (b64_pattern1 _ a (charToInt_cases sg a) ha)]
      rfl
    | [a, b], _, hb, hsafe =>
      have ha : a < 256 := hb a (by simp)
      have hb' : b < 256 := hb b (by simp)
      simp only [b64encRun, spec_b64encode, spec_b64group, List.take_succ_cons, List.take_zero]
      rw [charToInt_safe sg b (SignSafe_second sg a b hsafe),
        b64encGroup_eq _ _ true false (b64_pattern2 _ a b (charToInt_cases sg a) ha hb')]
      rfl
    | a :: b :: c :: rest, hs, hb, hsafe =>
      simp only [List.length_cons] at hs
      have ha : a < 256 := hb a (by simp)
      have hb' : b < 256 := hb b (by simp)
      have hc : c < 256 := hb c (by simp)
      have hrest : IsBytes rest := fun x hx => hb x (by simp [hx])
      obtain ⟨s2, s3, srest⟩ := SignSafe_tail sg a b c rest hsafe
      simp only [b64encRun, spec_b64encode, spec_b64group]
      rw [charToInt_safe sg b s2, charToInt_safe sg c s3,
        b64encGroup_eq _ _ true true (b64_pattern3 _ a b c (charToInt_cases sg a) ha hb' hc),
        ih (n - 3) (by omega) rest (by omega) hrest srest]
      rfl

/-- With room for the whole text and bytes whose promotion never sign-extends
into the text, `b64_encode` leaves the standard padded base64 encoding in the
first `4 * ceil(n / 3)` bytes of `buf`. -/
theorem b64_encode_signsafe (sg : Bool) (blen : Int) (src : List Nat) (hb : IsBytes src)
    (hsafe : SignSafe sg src)
    (hcap : ((4 * ((src.length + 2) / 3) : Nat) : Int) ≤ blen) :
    ∃ o, b64_encode sg blen src = some o ∧
      ∀ init, readBuf (store init o.writes) (4 * ((src.length + 2) / 3)) =
        spec_b64encode src := by
  obtain ⟨r, hrun, _⟩ := b64_encode_roomy sg blen src hcap
  refine ⟨_, hrun, ?_⟩
  intro init
  show readBuf (store init (seqWrites 0 (b64encRun sg src))) _ = _
  rw [b64encRun_eq_spec sg _ src (le_refl _) hb hsafe,
    ← spec_b64encode_length _ src (le_refl _)]
  exact readBuf_store_seq_nil init _


/-- C4 (`b64_encode` returned length), evaluated at the inputs `Man`, `Ma`
and `M` with `blen = 4 = 4 * ceil(n / 3)`, whether `char` is signed or not:
the encoded text is stored, but the call returns 8 for `Man` and `-1` for
`Ma` and `M`, not 4. -/
theorem b64_encode_returned_length_at_Man (signedChar : Bool) :
    b64_encode signedChar 4 [77, 97, 110] = some ⟨8, seqWrites 0 [84, 87, 70, 117]⟩ ∧
    b64_encode signedChar 4 [77, 97] = some ⟨-1, seqWrites 0 [84, 87, 69, 61]⟩ ∧
    b64_encode signedChar 4 [77] = some ⟨-1, seqWrites 0 [84, 81, 61, 61]⟩ := by
  cases signedChar <;> decide

/-- C5 (`b64_encode` output text), evaluated where `char` is signed at the
bytes `00 80 00` and `4d c8` with `blen = 4`: the second byte is sign-extended
by its promotion to `int` and the `|` of line 180 sets all higher bits of
`v`, so the call stores `/4AA` and `/8g=`, where the standard encodings of
those bytes are `AIAA` and `Tcg=`. -/
theorem b64_encode_sign_extension_at_00_80_00 :
    b64_encode true 4 [0, 128, 0] = some ⟨8, seqWrites 0 [47, 52, 65, 65]⟩ ∧
    spec_b64encode [0, 128, 0] = [65, 73, 65, 65] ∧
    b64_encode true 4 [77, 200] = some ⟨-1, seqWrites 0 [47, 56, 103, 61]⟩ ∧
    spec_b64encode [77, 200] = [84, 99, 103, 61] := by
  decide

/-! ## `uh_b64decode` -/

theorem b64cin_eq_spec (c : Nat) : b64cin c = spec_b64val c := by
  unfold b64cin spec_b64val
  split_ifs <;> first | rfl | omega

theorem spec_b64val_lt (c v : Nat) (h : spec_b64val c = some v) : v < 64 := by
  unfold spec_b64val at h
  split_ifs at h <;> simp at h <;> omega

theorem spec_b64val_ne_zero (c v : Nat) (h : spec_b64val c = some v) : c ≠ 0 := by
  intro hc; subst hc; simp [spec_b64val] at h

theorem shl6_or (x v : Nat) (h : v < 64) : x <<< 6 ||| v = x * 64 + v := by
  rw [Nat.shiftLeft_eq]
  have := Nat.mul_add_lt_is_or (i := 6) (b := v) (by simpa using h) x
  rw [Nat.mul_comm] at this
  simpa using this.symm

theorem b64_cout_bytes (cout v1 v2 v3 v4 : Nat) (h1 : v1 < 64) (h2 : v2 < 64)
    (h3 : v3 < 64) (h4 : v4 < 64) :
    let c4 := ((((cout * 64 + v1) % 4294967296 * 64 + v2) % 4294967296 * 64 + v3)
      % 4294967296 * 64 + v4) % 4294967296
    [c4 / 65536 % 256, c4 / 256 % 256, c4 % 256] = spec_b64bytes v1 v2 v3 v4 := by
  simp only [spec_b64bytes]
  refine List.cons_eq_cons.2 ⟨by omega, List.cons_eq_cons.2 ⟨by omega, List.cons_eq_cons.2 ⟨by omega, rfl⟩⟩⟩


/-- One iteration of the loop of `uh_b64decode` on an accepted byte whose
index is not the last of a group of four. -/
theorem uh_b64decode_loop_accept (blen : Int) (str : List Nat) (slen : Int)
    (fuel i len cout : Nat) (w : List (Nat × Nat)) (c v : Nat)
    (hget : str.get? i = some c) (hv : spec_b64val c = some v) (hi : (i : Int) ≤ slen)
    (h4 : i % 4 ≠ 3) :
    uh_b64decode_loop blen str slen (fuel + 1) i len cout w =
      uh_b64decode_loop blen str slen fuel (i + 1) len ((cout * 64 + v) % 4294967296) w := by
  rw [uh_b64decode_loop, if_pos hi, hget]
  simp only []
  rw [if_pos (spec_b64val_ne_zero c v hv), b64cin_eq_spec, hv]
  simp only []
  rw [if_pos h4, shl6_or _ _ (spec_b64val_lt c v hv)]
  rfl

/-- One iteration of the loop of `uh_b64decode` on an accepted byte whose
index is the last of a group of four, with more than 3 bytes of room. -/
theorem uh_b64decode_loop_emit (blen : Int) (str : List Nat) (slen : Int)
    (fuel i len cout : Nat) (w : List (Nat × Nat)) (c v : Nat)
    (hget : str.get? i = some c) (hv : spec_b64val c = some v) (hi : (i : Int) ≤ slen)
    (h4 : i % 4 = 3) (hroom : (len : Int) + 3 < blen) :
    uh_b64decode_loop blen str slen (fuel + 1) i len cout w =
      uh_b64decode_loop blen str slen fuel (i + 1) (len + 3) ((cout * 64 + v) % 4294967296)
        (w ++ [(len, (cout * 64 + v) % 4294967296 / 65536 % 256),
               (len + 1, (cout * 64 + v) % 4294967296 / 256 % 256),
               (len + 2, (cout * 64 + v) % 4294967296 % 256)]) := by
  rw [uh_b64decode_loop, if_pos hi, hget]
  simp only []
  rw [if_pos (spec_b64val_ne_zero c v hv), b64cin_eq_spec, hv]
  simp only []
  rw [if_neg (by omega), if_neg (by omega), shl6_or _ _ (spec_b64val_lt c v hv)]
  simp only [Nat.shiftRight_eq_div_pow]
  rfl

theorem get?_append_add (pre l : List Nat) (k : Nat) :
    (pre ++ l).get? (pre.length + k) = l.get? k := by
  rw [List.get?_eq_getElem?, List.get?_eq_getElem?,
    List.getElem?_append_right (Nat.le_add_right _ _), Nat.add_sub_cancel_left]

theorem get?_mid (pre rest : List Nat) (c : Nat) :
    (pre ++ c :: rest).get? pre.length = some c :=
  get?_append_add pre (c :: rest) 0

/-- On a text `e` of whole groups of accepted characters that starts at an
index divisible by 4 and is followed by a zero byte, with more than three
bytes of room per group, the loop of `uh_b64decode` stores the standard
decoding of `e`. -/
theorem uh_b64decode_loop_clean (blen : Int) (slen : Int) :
    ∀ (g : Nat) (pre e junk : List Nat) (fuel len cout : Nat) (w : List (Nat × Nat)),
      e.length = 4 * g → pre.length % 4 = 0 →
      (∀ c ∈ e, ∃ v, spec_b64val c = some v) →
      ((pre.length : Int) + e.length ≤ slen + 1) →
      ((len : Int) + 3 * g < blen) → e.length < fuel →
      uh_b64decode_loop blen (pre ++ e ++ 0 :: junk) slen fuel pre.length len cout w =
        some (len + 3 * g, w ++ seqWrites len (spec_b64decode e)) := by
  intro g
  induction g with
  | zero =>
    intro pre e junk fuel len cout w he _ _ _ _ hfuel
    have : e = [] := List.length_eq_zero.1 (by omega)
    subst this
    obtain ⟨fuel, rfl⟩ : ∃ f, fuel = f + 1 := ⟨fuel - 1, by omega⟩
    rw [uh_b64decode_loop]
    by_cases hi : (pre.length : Int) ≤ slen
    · rw [if_pos hi, List.append_nil, get?_mid]
      simp [spec_b64decode, seqWrites]
    · rw [if_neg hi]
      simp [spec_b64decode, seqWrites]
  | succ g ih =>
    intro pre e junk fuel len cout w he hpre hacc hslen hroom hfuel
    match e, he with
    | c1 :: c2 :: c3 :: c4 :: e', he =>
      simp only [List.length_cons] at he hslen hfuel
      push_cast at hslen
      obtain ⟨fuel, rfl⟩ : ∃ f, fuel = f + 1 + 1 + 1 + 1 := ⟨fuel - 4, by omega⟩
      obtain ⟨v1, hv1⟩ := hacc c1 (by simp)
      obtain ⟨v2, hv2⟩ := hacc c2 (by simp)
      obtain ⟨v3, hv3⟩ := hacc c3 (by simp)
      obtain ⟨v4, hv4⟩ := hacc c4 (by simp)
      have hassoc : pre ++ (c1 :: c2 :: c3 :: c4 :: e') ++ 0 :: junk =
          pre ++ (c1 :: c2 :: c3 :: c4 :: (e' ++ 0 :: junk)) := by
        rw [List.append_assoc]; rfl
      have hg1 : (pre ++ (c1 :: c2 :: c3 :: c4 :: e') ++ 0 :: junk).get? pre.length
          = some c1 := by
        rw [hassoc]; exact get?_append_add pre _ 0
      have hg2 : (pre ++ (c1 :: c2 :: c3 :: c4 :: e') ++ 0 :: junk).get? (pre.length + 1)
          = some c2 := by
        rw [hassoc]; exact get?_append_add pre _ 1
      have hg3 : (pre ++ (c1 :: c2 :: c3 :: c4 :: e') ++ 0 :: junk).get? (pre.length + 1 + 1)
          = some c3 := by
        rw [hassoc]; exact get?_append_add pre _ 2
      have hg4 : (pre ++ (c1 :: c2 :: c3 :: c4 :: e') ++ 0 :: junk).get?
          (pre.length + 1 + 1 + 1) = some c4 := by
        rw [hassoc]; exact get?_append_add pre _ 3
      rw [uh_b64decode_loop_accept _ _ _ _ _ _ _ _ c1 v1 hg1 hv1 (by omega) (by omega),
        uh_b64decode_loop_accept _ _ _ _ _ _ _ _ c2 v2 hg2 hv2 (by push_cast; omega)
          (by omega),
        uh_b64decode_loop_accept _ _ _ _ _ _ _ _ c3 v3 hg3 hv3 (by push_cast; omega)
          (by omega),
        uh_b64decode_loop_emit _ _ _ _ _ _ _ _ c4 v4 hg4 hv4 (by push_cast; omega)
          (by omega) (by push_cast at hroom; omega)]
      have hstr : pre ++ (c1 :: c2 :: c3 :: c4 :: e') ++ 0 :: junk =
          (pre ++ [c1, c2, c3, c4]) ++ e' ++ 0 :: junk := by simp
      have hlen : pre.length + 1 + 1 + 1 + 1 = (pre ++ [c1, c2, c3, c4]).length := by simp
      rw [hstr, hlen, ih (pre ++ [c1, c2, c3, c4]) e' junk fuel (len + 3) _ _ (by omega)
        (by simp; omega) (fun c hc => hacc c (by simp [hc]))
        (by simp; omega) (by push_cast at hroom ⊢; omega) (by omega)]
      have hb := b64_cout_bytes cout v1 v2 v3 v4 (spec_b64val_lt _ _ hv1)
        (spec_b64val_lt _ _ hv2) (spec_b64val_lt _ _ hv3) (spec_b64val_lt _ _ hv4)
      simp only [] at hb
      have hd : spec_b64decode (c1 :: c2 :: c3 :: c4 :: e') =
          spec_b64bytes v1 v2 v3 v4 ++ spec_b64decode e' := by
        simp [spec_b64decode, hv1, hv2, hv3, hv4]
      rw [hd, seqWrites_append, ← hb]
      simp only [seqWrites, List.append_assoc, List.length_cons, List.length_nil,
        List.cons_append, List.nil_append]
      congr 2
      omega


/-- `uh_b64decode` on a zero-terminated text of whole groups of accepted
characters, with `slen` reaching at least its last character and more than
three bytes of room per group: the standard decoding is stored from index 0
on, then the terminator, and the terminator is counted in the result. -/
theorem uh_b64decode_clean (blen slen : Int) (e junk : List Nat) (g : Nat)
    (he : e.length = 4 * g) (hacc : ∀ c ∈ e, ∃ v, spec_b64val c = some v)
    (hslen : (e.length : Int) ≤ slen + 1) (hroom : ((3 * g : Nat) : Int) < blen) :
    uh_b64decode blen (e ++ 0 :: junk) slen =
      some ⟨((3 * g : Nat) : Int) + 1, seqWrites 0 (spec_b64decode e) ++ [(3 * g, 0)]⟩ := by
  have h := uh_b64decode_loop_clean blen slen g [] e junk ((e ++ 0 :: junk).length + 1) 0 0 []
    he rfl hacc (by simpa using hslen) (by push_cast at hroom ⊢; omega) (by simp; omega)
  simp only [List.nil_append, List.length_nil, Nat.zero_add] at h
  unfold uh_b64decode
  rw [h]

set_option maxRecDepth 100000 in
theorem spec_b64val_char : ∀ n < 64, spec_b64val (spec_b64char n) = some n := by
  decide

theorem spec_b64bytes_sextets (a b c : Nat) (hb : b < 256) (hc : c < 256) :
    spec_b64bytes ((a * 65536 + b * 256 + c) / 262144) ((a * 65536 + b * 256 + c) / 4096 % 64)
      ((a * 65536 + b * 256 + c) / 64 % 64) ((a * 65536 + b * 256 + c) % 64) = [a, b, c] := by
  simp only [spec_b64bytes]
  refine List.cons_eq_cons.2 ⟨by omega, List.cons_eq_cons.2 ⟨by omega,
    List.cons_eq_cons.2 ⟨by omega, rfl⟩⟩⟩

/-- Decoding of one encoded group, padded or not: `p3` and `p4` are the last
two characters, which are the alphabet characters of the last two 6-bit
values or, where those values are zero, possibly `=`. -/
theorem spec_b64decode_group (a b c p3 p4 : Nat) (rest : List Nat)
    (ha : a < 256) (hb : b < 256) (hc : c < 256)
    (h3 : spec_b64val p3 = some ((a * 65536 + b * 256 + c) / 64 % 64))
    (h4 : spec_b64val p4 = some ((a * 65536 + b * 256 + c) % 64)) :
    spec_b64decode (spec_b64char ((a * 65536 + b * 256 + c) / 262144) ::
      spec_b64char ((a * 65536 + b * 256 + c) / 4096 % 64) :: p3 :: p4 :: rest) =
      [a, b, c] ++ spec_b64decode rest := by
  rw [spec_b64decode, spec_b64val_char _ (by omega),
    spec_b64val_char _ (Nat.mod_lt _ (by decide)), h3, h4]
  simp only [Option.getD_some]
  rw [spec_b64bytes_sextets a b c hb hc]

theorem spec_b64_decode_encode : ∀ (n : Nat) (s : List Nat), s.length ≤ n → IsBytes s →
    spec_b64decode (spec_b64encode s) =
      s ++ List.replicate (3 * ((s.length + 2) / 3) - s.length) 0 := by
  intro n
  induction n using Nat.strong_induction_on with
  | _ n ih =>
    intro s hs hb
    match s, hs, hb with
    | [], _, _ => rfl
    | [a], _, hb =>
      have ha : a < 256 := hb a (by simp)
      have e := spec_b64decode_group a 0 0 61 61 [] ha (by decide) (by decide)
        (by rw [show (a * 65536 + 0 * 256 + 0) / 64 % 64 = 0 by omega]; rfl)
        (by rw [show (a * 65536 + 0 * 256 + 0) % 64 = 0 by omega]; rfl)
      simp only [spec_b64encode, spec_b64group, List.take, List.cons_append, List.nil_append]
      rw [e]
      simp [spec_b64decode, List.replicate]
    | [a, b], _, hb =>
      have ha : a < 256 := hb a (by simp)
      have hb' : b < 256 := hb b (by simp)
      have e := spec_b64decode_group a b 0
        (spec_b64char ((a * 65536 + b * 256 + 0) / 64 % 64)) 61 [] ha hb' (by decide)
        (spec_b64val_char _ (Nat.mod_lt _ (by decide)))
        (by rw [show (a * 65536 + b * 256 + 0) % 64 = 0 by omega]; rfl)
      simp only [spec_b64encode, spec_b64group, List.take, List.cons_append, List.nil_append]
      rw [e]
      simp [spec_b64decode, List.replicate]
    | a :: b :: c :: rest, hs, hb =>
      simp only [List.length_cons] at hs
      have ha : a < 256 := hb a (by simp)
      have hb' : b < 256 := hb b (by simp)
      have hc : c < 256 := hb c (by simp)
      have hrest : IsBytes rest := fun x hx => hb x (by simp [hx])
      have e := spec_b64decode_group a b c
        (spec_b64char ((a * 65536 + b * 256 + c) / 64 % 64))
        (spec_b64char ((a * 65536 + b * 256 + c) % 64)) (spec_b64encode rest) ha hb' hc
        (spec_b64val_char _ (Nat.mod_lt _ (by decide)))
        (spec_b64val_char _ (Nat.mod_lt _ (by decide)))
      simp only [spec_b64encode, spec_b64group, List.cons_append, List.nil_append]
      rw [e, ih (n - 3) (by omega) rest (by omega) hrest]
      have hl : 3 * ((rest.length + 1 + 1 + 1 + 2) / 3) - (rest.length + 1 + 1 + 1) =
          3 * ((rest.length + 2) / 3) - rest.length := by omega
      simp only [List.length_cons, List.cons_append, List.nil_append, hl]

theorem spec_b64char_accepted (n : Nat) : ∃ v, spec_b64val (spec_b64char n) = some v := by
  by_cases h : n < 64
  · exact ⟨n, spec_b64val_char n h⟩
  · refine ⟨63, ?_⟩
    have : spec_b64char n = 47 := by
      unfold spec_b64char
      split_ifs <;> omega
    rw [this]; rfl

theorem spec_b64encode_accepted : ∀ (n : Nat) (s : List Nat), s.length ≤ n →
    ∀ c ∈ spec_b64encode s, ∃ v, spec_b64val c = some v := by
  intro n
  induction n using Nat.strong_induction_on with
  | _ n ih =>
    intro s hs c hc
    match s, hs, hc with
    | [], _, hc => simp [spec_b64encode] at hc
    | [a], _, hc =>
      simp only [spec_b64encode, spec_b64group, List.take, List.cons_append, List.nil_append,
        List.mem_cons, List.mem_singleton, List.not_mem_nil, or_false] at hc
      rcases hc with h | h | h | h <;> subst h
      · exact spec_b64char_accepted _
      · exact spec_b64char_accepted _
      · exact ⟨0, rfl⟩
      · exact ⟨0, rfl⟩
    | [a, b], _, hc =>
      simp only [spec_b64encode, spec_b64group, List.take, List.cons_append, List.nil_append,
        List.mem_cons, List.mem_singleton, List.not_mem_nil, or_false] at hc
      rcases hc with h | h | h | h <;> subst h
      · exact spec_b64char_accepted _
      · exact spec_b64char_accepted _
      · exact spec_b64char_accepted _
      · exact ⟨0, rfl⟩
    | a :: b :: c' :: rest, hs, hc =>
      simp only [List.length_cons] at hs
      simp only [spec_b64encode, spec_b64group, List.cons_append, List.nil_append,
        List.mem_cons] at hc
      rcases hc with h | h | h | h | h
      · subst h; exact spec_b64char_accepted _
      · subst h; exact spec_b64char_accepted _
      · subst h; exact spec_b64char_accepted _
      · subst h; exact spec_b64char_accepted _
      · exact ih (n - 3) (by omega) rest (by omega) c h


/-! ## Base64 round trip -/

/-- C2, as stated, fails on padded text: for `s = M` the encoder (here with
`char` signed; `M` is below `0x80`) writes `TQ==`, and the decoder run on it
with ample room returns 4 and leaves `M`, 0, 0 in the 3 bytes before the
terminator, which is not `s`. -/
theorem b64_round_trip_padding_fails :
    ∃ o, b64_encode true 4 [77] = some o ∧
      readBuf (store (fun _ => 0) o.writes) 4 = [84, 81, 61, 61] ∧
      ∃ o2, uh_b64decode 8 ([84, 81, 61, 61] ++ [0]) 4 = some o2 ∧ o2.ret = 4 ∧
        readBuf (store (fun _ => 0) o2.writes) (o2.ret - 1).toNat = [77, 0, 0] ∧
        readBuf (store (fun _ => 0) o2.writes) (o2.ret - 1).toNat ≠ [77] :=
  ⟨⟨-1, seqWrites 0 [84, 81, 61, 61]⟩, by decide, by decide,
   ⟨4, [(0, 77), (1, 0), (2, 0), (3, 0)]⟩, by decide, by decide, by decide, by decide⟩

/-- C2, amended: for a byte sequence `s` on which the encoder's promotion of
`char` never sign-extends into the text (`char` is unsigned, or every byte at
an index that is not a multiple of 3 is below `0x80`) and `g = ceil(|s| / 3)`,
take the `4 * g` bytes that `b64_encode` writes with capacity `blen ≥ 4 * g`,
zero-terminate them and pass them to `uh_b64decode` with `slen = 4 * g` and
capacity `blen2 ≥ 3 * g + 1`: the decoder returns `r = 3 * g + 1`, the first
`r - 1` bytes of its output are `s` followed by `3 * g - |s|` zero bytes
(each `=` is decoded as six zero bits), and so the first `|s|` bytes are
`s`. -/
theorem b64_round_trip_padded (signedChar : Bool) (s : List Nat) (hs : IsBytes s)
    (hsafe : SignSafe signedChar s) (blen blen2 : Int)
    (hcap : ((4 * ((s.length + 2) / 3) : Nat) : Int) ≤ blen)
    (hcap2 : ((3 * ((s.length + 2) / 3) : Nat) : Int) + 1 ≤ blen2)
    (init init2 : Nat → Nat) :
    ∃ o, b64_encode signedChar blen s = some o ∧
      ∃ o2, uh_b64decode blen2
          (readBuf (store init o.writes) (4 * ((s.length + 2) / 3)) ++ [0])
          ((4 * ((s.length + 2) / 3) : Nat) : Int) = some o2 ∧
        o2.ret = ((3 * ((s.length + 2) / 3) : Nat) : Int) + 1 ∧
        readBuf (store init2 o2.writes) (o2.ret - 1).toNat =
          s ++ List.replicate (3 * ((s.length + 2) / 3) - s.length) 0 ∧
        readBuf (store init2 o2.writes) s.length = s := by
  obtain ⟨r, hrun, _⟩ := b64_encode_roomy signedChar blen s hcap
  rw [b64encRun_eq_spec signedChar _ s (le_refl _) hs hsafe] at hrun
  refine ⟨_, hrun, ?_⟩
  have hlen := spec_b64encode_length _ s (le_refl _)
  have hread : readBuf (store init (seqWrites 0 (spec_b64encode s)))
      (4 * ((s.length + 2) / 3)) = spec_b64encode s := by
    rw [← hlen]; exact readBuf_store_seq_nil init _
  simp only [hread]
  have hdec := uh_b64decode_clean blen2 ((4 * ((s.length + 2) / 3) : Nat) : Int)
    (spec_b64encode s) [] ((s.length + 2) / 3) hlen
    (spec_b64encode_accepted _ s (le_refl _)) (by rw [hlen]; omega) (by omega)
  refine ⟨_, hdec, rfl, ?_, ?_⟩
  · have hd := spec_b64_decode_encode _ s (le_refl _) hs
    have hdl : (spec_b64decode (spec_b64encode s)).length = 3 * ((s.length + 2) / 3) := by
      rw [hd, List.length_append, List.length_replicate]; omega
    simp only [Int.add_sub_cancel, Int.toNat_ofNat]
    rw [← hd, ← hdl]
    exact readBuf_store_seq init2 _ _ (by simp [hdl])
  · have hd := spec_b64_decode_encode _ s (le_refl _) hs
    simp only [hd, seqWrites_append, List.append_assoc]
    apply readBuf_store_seq
    intro p hp
    rcases List.mem_append.1 hp with h | h
    · have := mem_seqWrites _ _ _ h
      omega
    · simp only [List.mem_singleton] at h
      subst h
      show s.length ≤ 3 * ((s.length + 2) / 3)
      omega

/-- An instance of the amended C2 with `char` signed: the bytes `c8 61`, the
first of them `0x80` or more, come back followed by one zero byte. -/
theorem b64_round_trip_padded_witness :
    IsBytes [200, 97] ∧ SignSafe true [200, 97] ∧
    ((4 * ((([200, 97] : List Nat).length + 2) / 3) : Nat) : Int) ≤ 4 ∧
    ((3 * ((([200, 97] : List Nat).length + 2) / 3) : Nat) : Int) + 1 ≤ 4 ∧
    ∃ o, b64_encode true 4 [200, 97] = some o ∧
      ∃ o2, uh_b64decode 4
          (readBuf (store (fun _ => 0) o.writes) (4 * ((([200, 97] : List Nat).length + 2) / 3))
            ++ [0])
          ((4 * ((([200, 97] : List Nat).length + 2) / 3) : Nat) : Int) = some o2 ∧
        o2.ret = ((3 * ((([200, 97] : List Nat).length + 2) / 3) : Nat) : Int) + 1 ∧
        readBuf (store (fun _ => 0) o2.writes) (o2.ret - 1).toNat =
          [200, 97] ++ List.replicate
            (3 * ((([200, 97] : List Nat).length + 2) / 3) - ([200, 97] : List Nat).length) 0 ∧
        readBuf (store (fun _ => 0) o2.writes) ([200, 97] : List Nat).length = [200, 97] :=
  ⟨by decide, by decide, by decide, by decide,
   b64_round_trip_padded true [200, 97] (by decide) (by decide) 4 4 (by decide) (by decide)
     (fun _ => 0) (fun _ => 0)⟩

/-! ## `uh_urldecode`: output and size -/

theorem spec_urldecode_plain (c : Nat) (rest : List Nat) (hc : c ≠ 37) :
    spec_urldecode (c :: rest) = c :: spec_urldecode rest := by
  rw [spec_urldecode.eq_def]; simp [hc]

theorem spec_urldecode_escape (h l : Nat) (rest : List Nat) :
    spec_urldecode (37 :: h :: l :: rest) =
      (16 * spec_hexval h + spec_hexval l) :: spec_urldecode rest := by
  rw [spec_urldecode.eq_def]; simp

theorem hex_eq_spec (h : Nat) (hx : isxdigit h = true) : hex h = spec_hexval h ∧ hex h < 16 := by
  have := (isxdigit_iff h).1 hx
  unfold hex spec_hexval
  split_ifs <;> omega

/-- On input free of malformed escapes and with room for every decoded byte,
the loop of `uh_urldecode` reads the whole input and stores its decoding. -/
theorem urldecRun_wellformed (blen : Int) :
    ∀ (n : Nat) (rest : List Nat) (i len : Nat) (w : List (Nat × Nat)),
      rest.length ≤ n → spec_malformed rest = false →
      ((len : Int) + (spec_urldecode rest).length) ≤ blen →
      urldecRun blen rest i len w =
        .left (i + rest.length) (len + (spec_urldecode rest).length)
          (w ++ seqWrites len (spec_urldecode rest)) := by
  intro n
  induction n with
  | zero =>
    intro rest i len w hn _ _
    have : rest = [] := List.length_eq_zero.1 (by omega)
    subst this
    simp [urldecRun_nil, spec_urldecode, seqWrites]
  | succ n ih =>
    intro rest i len w hn hwf hcap
    match rest, hn, hwf, hcap with
    | [], _, _, _ => simp [urldecRun_nil, spec_urldecode, seqWrites]
    | c :: rest, hn, hwf, hcap =>
      simp only [List.length_cons] at hn
      by_cases hc : c ≠ 37
      · rw [spec_malformed_plain c rest hc] at hwf
        rw [spec_urldecode_plain c rest hc] at hcap ⊢
        simp only [List.length_cons] at hcap ⊢
        push_cast at hcap
        rw [urldecRun_plain _ _ _ _ _ _ (by omega) hc,
          ih rest (i + 1) (len + 1) _ (by omega) hwf (by push_cast; omega)]
        simp only [seqWrites, List.append_assoc, List.singleton_append]
        congr 1 <;> omega
      · have hc' : c = 37 := by simpa using hc
        subst hc'
        match rest, hn, hwf, hcap with
        | [], _, hwf, _ => exact absurd hwf (by decide)
        | [h], _, hwf, _ =>
          have : spec_malformed [37, h] = true := by rw [spec_malformed.eq_def]; simp
          rw [this] at hwf; exact absurd hwf (by decide)
        | h :: l :: rest, hn, hwf, hcap =>
          simp only [List.length_cons] at hn
          by_cases hx : isxdigit h = true ∧ isxdigit l = true
          · rw [spec_malformed_escape h l rest hx] at hwf
            rw [spec_urldecode_escape] at hcap ⊢
            simp only [List.length_cons] at hcap ⊢
            push_cast at hcap
            obtain ⟨e1, b1⟩ := hex_eq_spec h hx.1
            obtain ⟨e2, b2⟩ := hex_eq_spec l hx.2
            rw [urldecRun_escape _ _ _ _ _ _ _ (by omega) hx.1 hx.2,
              ih rest (i + 2 + 1) (len + 1) _ (by omega) hwf (by push_cast; omega),
              Nat.mod_eq_of_lt (by omega), e1, e2]
            simp only [seqWrites, List.append_assoc, List.singleton_append]
            congr 1 <;> omega
          · rw [spec_malformed_bad h l rest hx] at hwf
            exact absurd hwf (by decide)

/-- C11 (`uh_urldecode` output): when every `%` met by the left-to-right scan
is followed by two hex digits, with `D` the number of units and a capacity
`blen > D`, the call returns `D` and the first `D` bytes of `buf` are, in
order, each plain byte unchanged and, for each escape `%XY`, the byte
`16 * hexval X + hexval Y`, with upper- and lower-case digits alike. -/
theorem uh_urldecode_output (blen : Int) (src : List Nat)
    (hwf : spec_malformed src = false)
    (hcap : ((spec_urldecode src).length : Int) < blen) :
    ∃ o, uh_urldecode blen src = some o ∧ o.ret = ((spec_urldecode src).length : Int) ∧
      ∀ init, readBuf (store init o.writes) (spec_urldecode src).length =
        spec_urldecode src := by
  rw [uh_urldecode_eq,
    urldecRun_wellformed blen src.length src 0 0 [] (le_refl _) hwf (by push_cast; omega)]
  simp only [Nat.zero_add, if_true, List.nil_append]
  refine ⟨_, rfl, rfl, ?_⟩
  intro init
  exact readBuf_store_seq init _ _ (by simp)

/-- The literal scenario of C11: `a%20b%2Fc` with 6 bytes of capacity gives
`a b/c` (5 bytes). -/
theorem uh_urldecode_output_witness :
    spec_malformed [97, 37, 50, 48, 98, 37, 50, 70, 99] = false ∧
    ((spec_urldecode [97, 37, 50, 48, 98, 37, 50, 70, 99]).length : Int) < 6 ∧
    ∃ o, uh_urldecode 6 [97, 37, 50, 48, 98, 37, 50, 70, 99] = some o ∧ o.ret = 5 ∧
      ∀ init, readBuf (store init o.writes) 5 = [97, 32, 98, 47, 99] :=
  ⟨by decide, by decide,
   uh_urldecode_output 6 [97, 37, 50, 48, 98, 37, 50, 70, 99] (by decide) (by decide)⟩

/-- C12 (URL decoding never expands): with capacity `blen ≥ slen` the call
never returns `-1`, and whenever it returns a count `n ≥ 0`, `n ≤ slen`. -/
theorem uh_urldecode_never_expands (blen : Int) (src : List Nat)
    (hcap : (src.length : Int) ≤ blen) :
    ∃ o, uh_urldecode blen src = some o ∧ o.ret ≠ -1 ∧
      (0 ≤ o.ret → o.ret ≤ (src.length : Int)) := by
  rw [uh_urldecode_eq]
  rcases urldecRun_roomy blen src.length src 0 0 [] (le_refl _) (by simpa using hcap)
    with ⟨_, w', h2⟩ | ⟨_, len', w', h2, h3⟩
  · rw [h2]
    refine ⟨_, rfl, ?_, ?_⟩
    · show (-2 : Int) ≠ -1
      decide
    · show (0 : Int) ≤ -2 → _
      intro h; omega
  · rw [h2]
    refine ⟨_, rfl, ?_, ?_⟩
    · simp only [Nat.zero_add, if_true]; omega
    · simp only [Nat.zero_add, if_true]; intro _; omega

theorem uh_urldecode_never_expands_witness :
    ((([97, 37, 50, 48, 98] : List Nat).length : Int) ≤ 5) ∧
    ∃ o, uh_urldecode 5 [97, 37, 50, 48, 98] = some o ∧ o.ret ≠ -1 ∧
      (0 ≤ o.ret → o.ret ≤ (([97, 37, 50, 48, 98] : List Nat).length : Int)) :=
  ⟨by decide, uh_urldecode_never_expands 5 [97, 37, 50, 48, 98] (by decide)⟩


/-! ## `htmlentityencode`: safe output and sufficient size -/

theorem htmlLen_lt (src : List Nat) (j : Nat) (h : j < src.length) :
    htmlLen src j + 1 ≤ (spec_htmlencode src).length := by
  have h1 := htmlLen_succ src j h
  have h2 := htmlLen_mono src (j + 1) src.length (by omega)
  rw [htmlLen_length] at h2
  have h3 := spec_htmlUnit_length (src.getD j 0)
  split at h3 <;> omega

/-- Bytes of the reference HTML encoding: none is `"`, apostrophe, `+`, `<`
or `>`, and each `&` is followed by `#`. -/
theorem spec_htmlencode_safe (src : List Nat) :
    ∀ j, j < (spec_htmlencode src).length →
      ((spec_htmlencode src).getD j 0 ≠ 34 ∧ (spec_htmlencode src).getD j 0 ≠ 39 ∧
        (spec_htmlencode src).getD j 0 ≠ 43 ∧ (spec_htmlencode src).getD j 0 ≠ 60 ∧
        (spec_htmlencode src).getD j 0 ≠ 62) ∧
      ((spec_htmlencode src).getD j 0 = 38 →
        j + 1 < (spec_htmlencode src).length ∧ (spec_htmlencode src).getD (j + 1) 0 = 35) := by
  induction src with
  | nil => intro j h; simp [spec_htmlencode] at h
  | cons c cs ih =>
    intro j h
    by_cases hr : spec_htmlReserved c = true
    · have hunit : spec_htmlencode (c :: cs) =
          38 :: 35 :: (48 + c / 10) :: (48 + c % 10) :: 59 :: spec_htmlencode cs := by
        simp [spec_htmlencode, spec_htmlUnit, hr]
      have hc : c < 100 := by
        simp only [spec_htmlReserved, Bool.or_eq_true, beq_iff_eq] at hr
        omega
      rw [hunit] at h ⊢
      simp only [List.length_cons] at h ⊢
      match j, h with
      | 0, _ => simp
      | 1, _ => simp
      | 2, _ => simp only [List.getD_cons_succ, List.getD_cons_zero]; omega
      | 3, _ => simp only [List.getD_cons_succ, List.getD_cons_zero]; omega
      | 4, _ => simp
      | j + 5, h =>
        simp only [List.getD_cons_succ]
        have := ih j (by omega)
        refine ⟨this.1, fun h38 => ?_⟩
        have := this.2 h38
        omega
    · have hf : spec_htmlReserved c = false := by simpa using hr
      have hunit : spec_htmlencode (c :: cs) = c :: spec_htmlencode cs := by
        simp [spec_htmlencode, spec_htmlUnit, hf]
      simp only [spec_htmlReserved, Bool.or_eq_false_iff, beq_eq_false_iff_ne] at hf
      rw [hunit] at h ⊢
      simp only [List.length_cons] at h ⊢
      match j, h with
      | 0, _ =>
        simp only [List.getD_cons_zero]
        exact ⟨⟨hf.1.1.1.1.1.1, hf.1.1.1.2, hf.1.1.2, hf.1.2, hf.2⟩,
          fun h38 => absurd h38 hf.1.1.1.1.2⟩
      | j + 1, h =>
        simp only [List.getD_cons_succ]
        have := ih j (by omega)
        refine ⟨this.1, fun h38 => ?_⟩
        have := this.2 h38
        omega

/-- C19 (HTML-safe output): whenever `htmlentityencode` returns `n ≥ 0`, none
of the first `n` bytes of `buf` is `"`, apostrophe, `+`, `<` or `>`, and
every `&` among them is immediately followed, within them, by `#`. -/
theorem htmlentityencode_safe_output (blen : Int) (src : List Nat) (init : Nat → Nat) :
    ∃ o, htmlentityencode blen src = some o ∧
      (0 ≤ o.ret → ∀ j : Nat, (j : Int) < o.ret →
        (store init o.writes j ≠ 34 ∧ store init o.writes j ≠ 39 ∧
          store init o.writes j ≠ 43 ∧ store init o.writes j ≠ 60 ∧
          store init o.writes j ≠ 62) ∧
        (store init o.writes j = 38 →
          ((j + 1 : Nat) : Int) < o.ret ∧ store init o.writes (j + 1) = 35)) := by
  obtain ⟨k, hk, hrun, _, _⟩ := htmlentityencode_run blen src
  refine ⟨_, hrun, ?_⟩
  by_cases hks : k = src.length
  · subst hks
    simp only [if_true, List.take_length]
    intro _ j hj
    have hj' : j < (spec_htmlencode src).length := by omega
    have hsafe := spec_htmlencode_safe src j hj'
    have hrd : ∀ a, a < (spec_htmlencode src).length →
        store init (seqWrites 0 (spec_htmlencode src)) a = (spec_htmlencode src).getD a 0 := by
      intro a ha
      have := store_seqWrites (spec_htmlencode src) 0 init a ha
      rwa [Nat.zero_add] at this
    rw [hrd j hj']
    refine ⟨hsafe.1, fun h38 => ?_⟩
    obtain ⟨h1, h2⟩ := hsafe.2 h38
    rw [hrd (j + 1) h1]
    exact ⟨by omega, h2⟩
  · simp only [hks, if_false]
    intro h; omega

/-- An instance of C19 on `<b>"x"</b>` with 34 bytes of capacity, where the
call returns 34. -/
theorem htmlentityencode_safe_output_witness :
    ∃ o, htmlentityencode 34 [60, 98, 62, 34, 120, 34, 60, 47, 98, 62] = some o ∧
      0 ≤ o.ret ∧ ∀ j : Nat, (j : Int) < o.ret →
        (store (fun _ => 0) o.writes j ≠ 34 ∧ store (fun _ => 0) o.writes j ≠ 39 ∧
          store (fun _ => 0) o.writes j ≠ 43 ∧ store (fun _ => 0) o.writes j ≠ 60 ∧
          store (fun _ => 0) o.writes j ≠ 62) ∧
        (store (fun _ => 0) o.writes j = 38 →
          ((j + 1 : Nat) : Int) < o.ret ∧ store (fun _ => 0) o.writes (j + 1) = 35) := by
  obtain ⟨o, ho, h⟩ :=
    htmlentityencode_safe_output 34 [60, 98, 62, 34, 120, 34, 60, 47, 98, 62] (fun _ => 0)
  have hev : (htmlentityencode 34 [60, 98, 62, 34, 120, 34, 60, 47, 98, 62]).map Out.ret =
      some 34 := by decide
  have hpos : 0 ≤ o.ret := by
    rw [ho] at hev
    simp only [Option.map_some', Option.some.injEq] at hev
    omega
  exact ⟨o, ho, hpos, h hpos⟩

/-- C20 (sufficient buffer size for `htmlentityencode`): with a capacity
`blen ≥ slen + 4 * k + 4` the call succeeds and returns `slen + 4 * k`. -/
theorem htmlentityencode_slack_suffices (blen : Int) (src : List Nat)
    (hcap : ((src.length + 4 * reservedCount src + 4 : Nat) : Int) ≤ blen) :
    ∃ o, htmlentityencode blen src = some o ∧
      o.ret = ((src.length + 4 * reservedCount src : Nat) : Int) ∧
      ∀ init, readBuf (store init o.writes) (src.length + 4 * reservedCount src) =
        spec_htmlencode src := by
  obtain ⟨j, hj, hrun, _, hstop⟩ := htmlentityencode_run blen src
  have hR := spec_htmlencode_length src
  have hjs : j = src.length := by
    by_contra hne
    have h1 := hstop (by omega)
    have h2 := htmlLen_lt src j (by omega)
    push_cast at hcap
    omega
  subst hjs
  rw [if_pos rfl, List.take_length] at hrun
  refine ⟨_, hrun, by rw [hR], ?_⟩
  intro init
  rw [← hR]
  exact readBuf_store_seq_nil init _

theorem htmlentityencode_slack_suffices_witness :
    ((([97, 60, 98] : List Nat).length + 4 * reservedCount [97, 60, 98] + 4 : Nat) : Int) ≤ 11 ∧
    ∃ o, htmlentityencode 11 [97, 60, 98] = some o ∧ o.ret = 7 ∧
      ∀ init, readBuf (store init o.writes) 7 = [97, 38, 35, 54, 48, 59, 98] :=
  ⟨by decide, htmlentityencode_slack_suffices 11 [97, 60, 98] (by decide)⟩


/-! ## `b64_encode`: overflow and returned value -/

/-- C15 (`b64_encode` overflow): for an input of length `n > 0` and a
capacity `blen < 4 * ceil(n / 3)`, in particular `0 ≤ blen < 4 * ceil(n / 3)`,
the call returns `-1`, every index it stores to is below `blen`, and the
number of bytes it stored is a multiple of 4 (whole groups only); this holds
whether `char` is signed or not. -/
theorem b64_encode_overflow (signedChar : Bool) (blen : Int) (src : List Nat)
    (hn : 0 < src.length)
    (hsmall : blen < ((4 * ((src.length + 2) / 3) : Nat) : Int)) :
    ∃ o, b64_encode signedChar blen src = some o ∧ o.ret = -1 ∧
      (∀ p ∈ o.writes, (p.1 : Int) < blen) ∧ o.writes.length % 4 = 0 := by
  obtain ⟨G, hG, hrun, hfit, hstop⟩ := b64_encode_run signedChar blen src
  have hlen := b64_take_length signedChar src G hG
  have hGs : 3 * G ≠ src.length := by
    intro h
    have h1 := hfit (G - 1) (by omega)
    have : (4 * (G - 1) : Nat) + 4 = 4 * G := by omega
    omega
  refine ⟨_, hrun, by simp [hGs], ?_, ?_⟩
  · intro p hp
    have h1 := mem_seqWrites _ _ _ hp
    rw [hlen] at h1
    by_cases hz : G = 0
    · subst hz; omega
    · have h2 := hfit (G - 1) (by omega)
      omega
  · show (seqWrites 0 (b64encRun signedChar (src.take (3 * G)))).length % 4 = 0
    rw [seqWrites_length, hlen]
    omega

theorem b64_encode_overflow_witness :
    0 < ([77, 97, 110, 33] : List Nat).length ∧
    (7 : Int) < ((4 * ((([77, 97, 110, 33] : List Nat).length + 2) / 3) : Nat) : Int) ∧
    ∃ o, b64_encode true 7 [77, 97, 110, 33] = some o ∧ o.ret = -1 ∧
      (∀ p ∈ o.writes, (p.1 : Int) < 7) ∧ o.writes.length % 4 = 0 :=
  ⟨by decide, by decide,
   b64_encode_overflow true 7 [77, 97, 110, 33] (by decide) (by decide)⟩

theorem seqWrites_fst (l : List Nat) :
    ∀ s, (seqWrites s l).map Prod.fst = List.range' s l.length := by
  induction l with
  | nil => intro s; rfl
  | cons b bs ih => intro s; simp [seqWrites, ih, List.range']

/-- C17 (actual return value of `b64_encode`): for a capacity `blen ≥ 0`,
whether `char` is signed or not, the call returns a non-negative value if and
only if `slen` is a multiple of 3 and `blen ≥ 4 * slen / 3`, and that value is
`4 * slen / 3 + 4`; when `slen` is not a multiple of 3 it returns `-1`
whatever the capacity, also when the capacity sufficed and the encoded text
has been written: its `4 * ceil(slen / 3)` bytes were stored at the indices
from 0 on, and they are the standard encoding when the input is one on which
the promotion of `char` never sign-extends into the text. -/
theorem b64_encode_return_value (signedChar : Bool) (blen : Int) (src : List Nat)
    (h0 : 0 ≤ blen) :
    ∃ o, b64_encode signedChar blen src = some o ∧
      (0 ≤ o.ret ↔ (src.length % 3 = 0 ∧ ((4 * src.length / 3 : Nat) : Int) ≤ blen)) ∧
      (0 ≤ o.ret → o.ret = ((4 * src.length / 3 : Nat) : Int) + 4) ∧
      (src.length % 3 ≠ 0 → o.ret = -1 ∧
        (((4 * ((src.length + 2) / 3) : Nat) : Int) ≤ blen →
          o.writes.map Prod.fst = List.range (4 * ((src.length + 2) / 3)) ∧
          (IsBytes src → SignSafe signedChar src →
            ∀ init, readBuf (store init o.writes) (4 * ((src.length + 2) / 3)) =
              spec_b64encode src))) := by
  obtain ⟨G, hG, hrun, hfit, hstop⟩ := b64_encode_run signedChar blen src
  refine ⟨_, hrun, ?_, ?_, ?_⟩
  · by_cases hGs : 3 * G = src.length
    · simp only [hGs, if_true]
      constructor
      · intro _
        refine ⟨by omega, ?_⟩
        by_cases hz : G = 0
        · subst hz
          have : 4 * src.length / 3 = 0 := by omega
          rw [this]; exact h0
        · have h1 := hfit (G - 1) (by omega)
          have : 4 * src.length / 3 = 4 * (G - 1) + 4 := by omega
          rw [this]; push_cast at h1 ⊢; omega
      · intro _; omega
    · simp only [hGs, if_false]
      constructor
      · intro h; omega
      · rintro ⟨h3, hcap⟩
        exfalso
        by_cases hlt : 3 * G < src.length
        · have h1 := hstop hlt
          have : 4 * G + 4 ≤ 4 * src.length / 3 := by omega
          omega
        · omega
  · by_cases hGs : 3 * G = src.length
    · simp only [hGs, if_true]
      intro _
      have : 4 * src.length / 3 = 4 * G := by omega
      rw [this]
    · simp only [hGs, if_false]
      intro h; omega
  · intro h3
    have hGs : 3 * G ≠ src.length := by omega
    refine ⟨by simp [hGs], ?_⟩
    intro hcap
    have hend : src.length ≤ 3 * G := by
      by_contra hlt
      have := hstop (by omega)
      omega
    have hl := b64encRun_length signedChar _ src (le_refl _)
    constructor
    · show (seqWrites 0 (b64encRun signedChar (src.take (3 * G)))).map Prod.fst = _
      rw [List.take_of_length_le hend, seqWrites_fst, hl, List.range_eq_range']
    · intro hb hsafe init
      show readBuf (store init (seqWrites 0 (b64encRun signedChar (src.take (3 * G))))) _ = _
      rw [List.take_of_length_le hend, b64encRun_eq_spec signedChar _ src (le_refl _) hb hsafe,
        ← spec_b64encode_length _ src (le_refl _)]
      exact readBuf_store_seq_nil init _

/-- An instance of C17 with `char` signed: `Man` with `blen = 4` returns 8,
and `Ma` with `blen = 4` returns `-1`. -/
theorem b64_encode_return_value_witness :
    (0 : Int) ≤ 4 ∧
    (∃ o, b64_encode true 4 [77, 97, 110] = some o ∧ o.ret = 8) ∧
    (∃ o, b64_encode true 4 [77, 97] = some o ∧ o.ret = -1) :=
  ⟨by decide,
   (b64_encode_return_value true 4 [77, 97, 110] (by decide)).imp
     (fun _ h => ⟨h.1, h.2.2.1 (h.2.1.2 (by decide))⟩),
   (b64_encode_return_value true 4 [77, 97] (by decide)).imp
     (fun _ h => ⟨h.1, (h.2.2.2 (by decide)).1⟩)⟩

/-! ## `uh_b64decode`: clean text, capacity, bounds -/

theorem spec_b64alphabet_accepted (c : Nat) (h : spec_b64alphabet c = true) :
    ∃ v, spec_b64val c = some v := by
  simp only [spec_b64alphabet, Bool.or_eq_true, Bool.and_eq_true, decide_eq_true_eq,
    beq_iff_eq] at h
  unfold spec_b64val
  split_ifs <;> first | exact ⟨_, rfl⟩ | omega

theorem spec_b64decode_length : ∀ (k : Nat) (t : List Nat), t.length = 4 * k →
    (spec_b64decode t).length = 3 * k := by
  intro k
  induction k with
  | zero =>
    intro t h
    have : t = [] := List.length_eq_zero.1 (by omega)
    subst this; rfl
  | succ k ih =>
    intro t h
    match t, h with
    | c1 :: c2 :: c3 :: c4 :: t', h =>
      simp only [List.length_cons] at h
      simp only [spec_b64decode, spec_b64bytes, List.length_append, List.length_cons,
        List.length_nil, ih t' (by omega)]
      omega

theorem store_last (mem : Nat → Nat) (w : List (Nat × Nat)) (k v : Nat) :
    store mem (w ++ [(k, v)]) k = v := by
  rw [store_append]
  simp [store]

/-- C14 (`uh_b64decode` on clean text): for a zero-terminated text `t` of
`4 * k` characters of the alphabet `A-Z a-z 0-9 + /`, with `slen = 4 * k` and
a capacity `blen ≥ 3 * k + 1`, the call returns `3 * k + 1`, the first
`3 * k` bytes of `buf` are the standard base64 decoding of `t`, and
`buf[3 * k] = 0`. -/
theorem uh_b64decode_clean_text (blen : Int) (t junk : List Nat) (k : Nat)
    (ht : t.length = 4 * k) (halpha : ∀ c ∈ t, spec_b64alphabet c = true)
    (hcap : ((3 * k : Nat) : Int) + 1 ≤ blen) :
    ∃ o, uh_b64decode blen (t ++ 0 :: junk) ((4 * k : Nat) : Int) = some o ∧
      o.ret = ((3 * k : Nat) : Int) + 1 ∧
      ∀ init, readBuf (store init o.writes) (3 * k) = spec_b64decode t ∧
        store init o.writes (3 * k) = 0 := by
  have h := uh_b64decode_clean blen ((4 * k : Nat) : Int) t junk k ht
    (fun c hc => spec_b64alphabet_accepted c (halpha c hc)) (by rw [ht]; omega) (by omega)
  refine ⟨_, h, rfl, ?_⟩
  intro init
  have hl := spec_b64decode_length k t ht
  refine ⟨?_, store_last _ _ _ _⟩
  rw [← hl]
  exact readBuf_store_seq init _ _ (by simp [hl])

/-- The literal scenario of C14: `TWFu` with `blen = 4` decodes to `Man` and
the call returns 4. -/
theorem uh_b64decode_clean_text_witness :
    ([84, 87, 70, 117] : List Nat).length = 4 * 1 ∧
    (∀ c ∈ ([84, 87, 70, 117] : List Nat), spec_b64alphabet c = true) ∧
    ((3 * 1 : Nat) : Int) + 1 ≤ 4 ∧
    ∃ o, uh_b64decode 4 ([84, 87, 70, 117] ++ 0 :: []) ((4 * 1 : Nat) : Int) = some o ∧
      o.ret = 4 ∧
      ∀ init, readBuf (store init o.writes) 3 = [77, 97, 110] ∧
        store init o.writes 3 = 0 :=
  ⟨by decide, by decide, by decide,
   uh_b64decode_clean_text 4 [84, 87, 70, 117] [] 1 (by decide) (by decide) (by decide)⟩

/-- C13 (`uh_b64decode` skips invalid characters), evaluated at `TW-Fu`: the
hyphen at index 2 is skipped, but the group is closed by the test `i % 4`
on the input index, at `F`, after three accepted symbols; the call stores
the bytes 1, 53, 133 where `TWFu`, with the same capacity, gives `Man`. -/
theorem uh_b64decode_skip_at_TW_Fu :
    uh_b64decode 4 [84, 87, 45, 70, 117, 0] 5 =
        some ⟨4, [(0, 1), (1, 53), (2, 133), (3, 0)]⟩ ∧
      uh_b64decode 4 [84, 87, 70, 117, 0] 4 =
        some ⟨4, [(0, 77), (1, 97), (2, 110), (3, 0)]⟩ := by
  decide


/-- One iteration of the loop of `uh_b64decode` on an accepted byte whose
index is the last of a group of four, with at most 3 bytes of room: the loop
is left. -/
theorem uh_b64decode_loop_stop (blen : Int) (str : List Nat) (slen : Int)
    (fuel i len cout : Nat) (w : List (Nat × Nat)) (c v : Nat)
    (hget : str.get? i = some c) (hv : spec_b64val c = some v) (hi : (i : Int) ≤ slen)
    (h4 : i % 4 = 3) (hfull : blen ≤ (len : Int) + 3) :
    uh_b64decode_loop blen str slen (fuel + 1) i len cout w = some (len, w) := by
  rw [uh_b64decode_loop, if_pos hi, hget]
  simp only []
  rw [if_pos (spec_b64val_ne_zero c v hv), b64cin_eq_spec, hv]
  simp only []
  rw [if_neg (by omega), if_pos (by omega)]

/-- On a text `e` of `g` whole groups of accepted characters that starts at
an index divisible by 4 and is followed by a zero byte, the loop of
`uh_b64decode` emits the groups in order as long as more than 3 bytes of
room remain, and stops at the first group that finds `len + 3 ≥ blen`. -/
theorem uh_b64decode_loop_capped (blen : Int) (slen : Int) :
    ∀ (g : Nat) (pre e junk : List Nat) (fuel len cout : Nat) (w : List (Nat × Nat))
      (m : Nat),
      e.length = 4 * g → pre.length % 4 = 0 →
      (∀ c ∈ e, ∃ v, spec_b64val c = some v) →
      ((pre.length : Int) + e.length ≤ slen + 1) → e.length < fuel →
      m ≤ g → (∀ j, j < m → (len : Int) + 3 * j + 3 < blen) →
      (m < g → blen ≤ (len : Int) + 3 * m + 3) →
      uh_b64decode_loop blen (pre ++ e ++ 0 :: junk) slen fuel pre.length len cout w =
        some (len + 3 * m, w ++ seqWrites len ((spec_b64decode e).take (3 * m))) := by
  intro g
  induction g with
  | zero =>
    intro pre e junk fuel len cout w m he _ _ _ hfuel hm _ _
    have : e = [] := List.length_eq_zero.1 (by omega)
    subst this
    have hm0 : m = 0 := by omega
    subst hm0
    obtain ⟨fuel, rfl⟩ : ∃ f, fuel = f + 1 := ⟨fuel - 1, by omega⟩
    rw [uh_b64decode_loop]
    by_cases hi : (pre.length : Int) ≤ slen
    · rw [if_pos hi, List.append_nil, get?_mid]
      simp [spec_b64decode, seqWrites]
    · rw [if_neg hi]
      simp [spec_b64decode, seqWrites]
  | succ g ih =>
    intro pre e junk fuel len cout w m he hpre hacc hslen hfuel hm hroom hstop
    match e, he with
    | c1 :: c2 :: c3 :: c4 :: e', he =>
      simp only [List.length_cons] at he hslen hfuel
      push_cast at hslen
      obtain ⟨fuel, rfl⟩ : ∃ f, fuel = f + 1 + 1 + 1 + 1 := ⟨fuel - 4, by omega⟩
      obtain ⟨v1, hv1⟩ := hacc c1 (by simp)
      obtain ⟨v2, hv2⟩ := hacc c2 (by simp)
      obtain ⟨v3, hv3⟩ := hacc c3 (by simp)
      obtain ⟨v4, hv4⟩ := hacc c4 (by simp)
      have hassoc : pre ++ (c1 :: c2 :: c3 :: c4 :: e') ++ 0 :: junk =
          pre ++ (c1 :: c2 :: c3 :: c4 :: (e' ++ 0 :: junk)) := by
        rw [List.append_assoc]; rfl
      have hg1 : (pre ++ (c1 :: c2 :: c3 :: c4 :: e') ++ 0 :: junk).get? pre.length
          = some c1 := by
        rw [hassoc]; exact get?_append_add pre _ 0
      have hg2 : (pre ++ (c1 :: c2 :: c3 :: c4 :: e') ++ 0 :: junk).get? (pre.length + 1)
          = some c2 := by
        rw [hassoc]; exact get?_append_add pre _ 1
      have hg3 : (pre ++ (c1 :: c2 :: c3 :: c4 :: e') ++ 0 :: junk).get? (pre.length + 1 + 1)
          = some c3 := by
        rw [hassoc]; exact get?_append_add pre _ 2
      have hg4 : (pre ++ (c1 :: c2 :: c3 :: c4 :: e') ++ 0 :: junk).get?
          (pre.length + 1 + 1 + 1) = some c4 := by
        rw [hassoc]; exact get?_append_add pre _ 3
      rw [uh_b64decode_loop_accept _ _ _ _ _ _ _ _ c1 v1 hg1 hv1 (by omega) (by omega),
        uh_b64decode_loop_accept _ _ _ _ _ _ _ _ c2 v2 hg2 hv2 (by push_cast; omega)
          (by omega),
        uh_b64decode_loop_accept _ _ _ _ _ _ _ _ c3 v3 hg3 hv3 (by push_cast; omega)
          (by omega)]
      match m, hm, hroom, hstop with
      | 0, _, _, hstop =>
        have hfull := hstop (by omega)
        rw [uh_b64decode_loop_stop _ _ _ _ _ _ _ _ c4 v4 hg4 hv4 (by push_cast; omega)
          (by omega) (by omega)]
        simp [seqWrites]
      | m + 1, hm, hroom, hstop =>
        have hr0 := hroom 0 (by omega)
        rw [uh_b64decode_loop_emit _ _ _ _ _ _ _ _ c4 v4 hg4 hv4 (by push_cast; omega)
          (by omega) (by omega)]
        have hstr : pre ++ (c1 :: c2 :: c3 :: c4 :: e') ++ 0 :: junk =
            (pre ++ [c1, c2, c3, c4]) ++ e' ++ 0 :: junk := by simp
        have hlen : pre.length + 1 + 1 + 1 + 1 = (pre ++ [c1, c2, c3, c4]).length := by simp
        rw [hstr, hlen, ih (pre ++ [c1, c2, c3, c4]) e' junk fuel (len + 3) _ _ m (by omega)
          (by simp; omega) (fun c hc => hacc c (by simp [hc]))
          (by simp; omega) (by omega) (by omega)
          (fun j hj => by have := hroom (j + 1) (by omega); push_cast at this ⊢; omega)
          (fun hmg => by have := hstop (by omega); push_cast at this ⊢; omega)]
        have hb := b64_cout_bytes cout v1 v2 v3 v4 (spec_b64val_lt _ _ hv1)
          (spec_b64val_lt _ _ hv2) (spec_b64val_lt _ _ hv3) (spec_b64val_lt _ _ hv4)
        simp only [] at hb
        have hd : spec_b64decode (c1 :: c2 :: c3 :: c4 :: e') =
            spec_b64bytes v1 v2 v3 v4 ++ spec_b64decode e' := by
          simp [spec_b64decode, hv1, hv2, hv3, hv4]
        have ht : (spec_b64bytes v1 v2 v3 v4 ++ spec_b64decode e').take (3 * (m + 1)) =
            spec_b64bytes v1 v2 v3 v4 ++ (spec_b64decode e').take (3 * m) := by
          rw [List.take_append_eq_append_take]
          have h3 : (spec_b64bytes v1 v2 v3 v4).length = 3 := rfl
          rw [h3, List.take_of_length_le (by rw [h3]; omega)]
          congr 2
        rw [hd, ht, seqWrites_append, ← hb]
        simp only [seqWrites, List.append_assoc, List.length_cons, List.length_nil,
          List.cons_append, List.nil_append]
        congr 2
        omega

/-- C16, as stated, fails: on `TWFu` with `blen = 3` the group completes with
`len = 0`, so `len + 3 ≤ blen` holds, yet nothing is emitted: the call only
stores the terminator at index 0 and returns 1. -/
theorem uh_b64decode_three_bytes_not_enough :
    ((0 : Int) + 3 ≤ 3) ∧ uh_b64decode 3 [84, 87, 70, 117, 0] 4 = some ⟨1, [(0, 0)]⟩ := by
  decide

/-- C16, amended: on a zero-terminated text `t` of `k` whole groups of
accepted characters, a completed group is emitted when more than 3 bytes of
capacity remain (`len + 3 < blen`: one byte is kept for the terminator), and
decoding stops at the first group that finds `len + 3 ≥ blen`.  So with `m`
the number of groups such that `m = 0` or `3 * m < blen`, and `m = k` or
`blen ≤ 3 * m + 3`, the call returns `3 * m + 1` and the first `3 * m` bytes of
`buf` are the first `3 * m` bytes of the standard decoding of `t`. -/
theorem uh_b64decode_capacity_rule (blen slen : Int) (t junk : List Nat) (k m : Nat)
    (ht : t.length = 4 * k) (hacc : ∀ c ∈ t, ∃ v, spec_b64val c = some v)
    (hslen : (t.length : Int) ≤ slen + 1) (hm : m ≤ k)
    (hroom : m = 0 ∨ ((3 * m : Nat) : Int) < blen)
    (hstop : m < k → blen ≤ ((3 * m : Nat) : Int) + 3) :
    ∃ o, uh_b64decode blen (t ++ 0 :: junk) slen = some o ∧
      o.ret = ((3 * m : Nat) : Int) + 1 ∧
      ∀ init, readBuf (store init o.writes) (3 * m) = (spec_b64decode t).take (3 * m) := by
  have h := uh_b64decode_loop_capped blen slen k [] t junk ((t ++ 0 :: junk).length + 1) 0 0 []
    m ht rfl hacc (by simpa using hslen) (by simp; omega) hm
    (fun j hj => by push_cast; omega) (fun hmk => by have := hstop hmk; push_cast at this ⊢; omega)
  simp only [List.nil_append, List.length_nil, Nat.zero_add] at h
  unfold uh_b64decode
  rw [h]
  refine ⟨_, rfl, rfl, ?_⟩
  intro init
  have hl : ((spec_b64decode t).take (3 * m)).length = 3 * m := by
    rw [List.length_take, spec_b64decode_length k t ht]
    omega
  have := readBuf_store_seq init ((spec_b64decode t).take (3 * m)) [(3 * m, 0)]
    (by simp [hl])
  rw [hl] at this
  exact this

/-- Instances of the amended C16: `TWFuTWFu` with `blen = 6` emits one group
(`Man`) and returns 4; `TWFu` with `blen = 4` emits `Man`. -/
theorem uh_b64decode_capacity_rule_witness :
    ([84, 87, 70, 117, 84, 87, 70, 117] : List Nat).length = 4 * 2 ∧
    (∀ c ∈ ([84, 87, 70, 117, 84, 87, 70, 117] : List Nat), ∃ v, spec_b64val c = some v) ∧
    ((([84, 87, 70, 117, 84, 87, 70, 117] : List Nat).length : Int) ≤ 8 + 1) ∧ 1 ≤ 2 ∧
    ((1 = 0) ∨ ((3 * 1 : Nat) : Int) < 6) ∧ (1 < 2 → (6 : Int) ≤ ((3 * 1 : Nat) : Int) + 3) ∧
    ∃ o, uh_b64decode 6 ([84, 87, 70, 117, 84, 87, 70, 117] ++ 0 :: []) 8 = some o ∧
      o.ret = 4 ∧ ∀ init, readBuf (store init o.writes) 3 = [77, 97, 110] :=
  ⟨by decide, fun c hc => spec_b64alphabet_accepted c (by revert c; decide), by decide,
   by decide, by decide, by decide,
   uh_b64decode_capacity_rule 6 8 [84, 87, 70, 117, 84, 87, 70, 117] [] 2 1 (by decide)
     (fun c hc => spec_b64alphabet_accepted c (by revert c; decide)) (by decide) (by decide)
     (by decide) (by decide)⟩

/-- Invariant of the loop of `uh_b64decode`: started with `len < blen`, `len`
a multiple of 3 and all stores below `len`, on a memory object that holds a
zero byte at or after `i` or has more than `slen` bytes, the loop ends, with
the same three properties. -/
theorem uh_b64decode_loop_inv (blen : Int) (str : List Nat) (slen : Int) :
    ∀ (fuel i len cout : Nat) (w : List (Nat × Nat)),
      i ≤ str.length → str.length + 1 ≤ i + fuel →
      (slen < (str.length : Int) ∨ ∃ z, i ≤ z ∧ str.get? z = some 0) →
      (len : Int) < blen → len % 3 = 0 → (∀ p ∈ w, p.1 < len) →
      ∃ len' w', uh_b64decode_loop blen str slen fuel i len cout w = some (len', w') ∧
        (len' : Int) < blen ∧ len' % 3 = 0 ∧ ∀ p ∈ w', p.1 < len' := by
  intro fuel
  induction fuel with
  | zero => intro i len cout w h₁ h₂; omega
  | succ fuel ih =>
    intro i len cout w h₁ h₂ hsafe hlen h3 hw
    rw [uh_b64decode_loop]
    by_cases hi : (i : Int) ≤ slen
    · rw [if_pos hi]
      have hin : i < str.length := by
        rcases hsafe with h | ⟨z, hz, hget⟩
        · omega
        · have : z < str.length := by
            rw [List.get?_eq_getElem?] at hget
            exact (List.getElem?_eq_some_iff.1 hget).1
          omega
      have hget : str.get? i = some (str.get ⟨i, hin⟩) := List.get?_eq_get hin
      rw [hget]
      simp only []
      by_cases hc : str.get ⟨i, hin⟩ ≠ 0
      · rw [if_pos hc]
        have hsafe' : slen < (str.length : Int) ∨ ∃ z, i + 1 ≤ z ∧ str.get? z = some 0 := by
          rcases hsafe with h | ⟨z, hz, hgz⟩
          · exact Or.inl h
          · refine Or.inr ⟨z, ?_, hgz⟩
            by_contra hlt
            have hzi : z = i := by omega
            subst hzi
            rw [hget] at hgz
            exact hc (Option.some.inj hgz)
        cases hcin : b64cin (str.get ⟨i, hin⟩) with
        | none =>
          simp only []
          exact ih (i + 1) len cout w (by omega) (by omega) hsafe' hlen h3 hw
        | some cin =>
          simp only []
          by_cases h4 : i % 4 ≠ 3
          · rw [if_pos h4]
            exact ih (i + 1) len _ w (by omega) (by omega) hsafe' hlen h3 hw
          · rw [if_neg h4]
            by_cases hfull : (len : Int) + 3 ≥ blen
            · rw [if_pos hfull]
              exact ⟨len, w, rfl, hlen, h3, hw⟩
            · rw [if_neg hfull]
              refine ih (i + 1) (len + 3) _ _ (by omega) (by omega) hsafe'
                (by push_cast; omega) (by omega) ?_
              intro p hp
              rcases List.mem_append.1 hp with h | h
              · have := hw p h; omega
              · simp only [List.mem_cons, List.mem_singleton, List.not_mem_nil,
                  or_false] at h
                rcases h with h | h | h <;> subst h <;> simp
      · rw [if_neg hc]
        exact ⟨len, w, rfl, hlen, h3, hw⟩
    · rw [if_neg hi]
      exact ⟨len, w, rfl, hlen, h3, hw⟩

/-- Whenever the loop of `uh_b64decode` yields a result, started with
`len < blen`, `len` a multiple of 3 and all stores below `len`, the result has
the same three properties. -/
theorem uh_b64decode_loop_some_inv (blen : Int) (str : List Nat) (slen : Int) :
    ∀ (fuel i len cout : Nat) (w : List (Nat × Nat)) (len' : Nat) (w' : List (Nat × Nat)),
      uh_b64decode_loop blen str slen fuel i len cout w = some (len', w') →
      (len : Int) < blen → len % 3 = 0 → (∀ p ∈ w, p.1 < len) →
      (len' : Int) < blen ∧ len' % 3 = 0 ∧ ∀ p ∈ w', p.1 < len' := by
  intro fuel
  induction fuel with
  | zero =>
    intro i len cout w len' w' h
    simp [uh_b64decode_loop] at h
  | succ fuel ih =>
    intro i len cout w len' w' h hlen h3 hw
    rw [uh_b64decode_loop] at h
    by_cases hi : (i : Int) ≤ slen
    · rw [if_pos hi] at h
      cases hget : str.get? i with
      | none => rw [hget] at h; simp at h
      | some c =>
        rw [hget] at h
        simp only [] at h
        by_cases hc : c ≠ 0
        · rw [if_pos hc] at h
          cases hcin : b64cin c with
          | none =>
            rw [hcin] at h
            exact ih _ _ _ _ _ _ h hlen h3 hw
          | some cin =>
            rw [hcin] at h
            simp only [] at h
            by_cases h4 : i % 4 ≠ 3
            · rw [if_pos h4] at h
              exact ih _ _ _ _ _ _ h hlen h3 hw
            · rw [if_neg h4] at h
              by_cases hfull : (len : Int) + 3 ≥ blen
              · rw [if_pos hfull] at h
                simp only [Option.some.injEq, Prod.mk.injEq] at h
                obtain ⟨rfl, rfl⟩ := h
                exact ⟨hlen, h3, hw⟩
              · rw [if_neg hfull] at h
                refine ih _ _ _ _ _ _ h (by push_cast; omega) (by omega) ?_
                intro p hp
                rcases List.mem_append.1 hp with hp | hp
                · have := hw p hp; omega
                · simp only [List.mem_cons, List.mem_singleton, List.not_mem_nil,
                    or_false] at hp
                  rcases hp with hp | hp | hp <;> subst hp <;> simp
        · rw [if_neg hc] at h
          simp only [Option.some.injEq, Prod.mk.injEq] at h
          obtain ⟨rfl, rfl⟩ := h
          exact ⟨hlen, h3, hw⟩
    · rw [if_neg hi] at h
      simp only [Option.some.injEq, Prod.mk.injEq] at h
      obtain ⟨rfl, rfl⟩ := h
      exact ⟨hlen, h3, hw⟩

/-- C18 (`uh_b64decode` stays inside its buffer when given at least one
byte): for a capacity `blen ≥ 1`, on every input on which the call's reads
are defined (in particular every input that holds a zero byte or more than
`slen` bytes, for which a result is produced), every index the call stores
to, the final terminator included, is below `blen`; the returned length `r`
satisfies `1 ≤ r ≤ blen`, `r - 1` is a multiple of 3, and `buf[r - 1] = 0`. -/
theorem uh_b64decode_in_bounds (blen : Int) (str : List Nat) (slen : Int) (hb : 1 ≤ blen) :
    ((slen < (str.length : Int) ∨ 0 ∈ str) → ∃ o, uh_b64decode blen str slen = some o) ∧
    ∀ o, uh_b64decode blen str slen = some o →
      (∀ p ∈ o.writes, (p.1 : Int) < blen) ∧ 1 ≤ o.ret ∧ o.ret ≤ blen ∧
      (o.ret - 1) % 3 = 0 ∧ ∀ init, store init o.writes (o.ret - 1).toNat = 0 := by
  constructor
  · intro hread
    have hsafe : slen < (str.length : Int) ∨ ∃ z, 0 ≤ z ∧ str.get? z = some 0 := by
      rcases hread with h | h
      · exact Or.inl h
      · obtain ⟨z, hz, hgz⟩ := List.mem_iff_getElem.1 h
        refine Or.inr ⟨z, Nat.zero_le _, ?_⟩
        rw [List.get?_eq_getElem?, List.getElem?_eq_getElem hz, hgz]
    obtain ⟨len', w', hrun, _, _, _⟩ :=
      uh_b64decode_loop_inv blen str slen (str.length + 1) 0 0 0 [] (Nat.zero_le _) (by omega)
        hsafe (by omega) rfl (by simp)
    unfold uh_b64decode
    rw [hrun]
    exact ⟨_, rfl⟩
  · intro o ho
    unfold uh_b64decode at ho
    cases hrun : uh_b64decode_loop blen str slen (str.length + 1) 0 0 0 [] with
    | none => rw [hrun] at ho; simp at ho
    | some r =>
      obtain ⟨len', w'⟩ := r
      rw [hrun] at ho
      simp only [Option.some.injEq] at ho
      subst ho
      obtain ⟨hl, h3, hw⟩ :=
        uh_b64decode_loop_some_inv blen str slen _ _ _ _ _ _ _ hrun (by omega) rfl (by simp)
      refine ⟨?_, ?_, ?_, ?_, ?_⟩
      · intro p hp
        rcases List.mem_append.1 hp with h | h
        · have := hw p h; omega
        · simp only [List.mem_singleton] at h
          subst h; exact hl
      · show (1 : Int) ≤ (len' : Int) + 1
        omega
      · show (len' : Int) + 1 ≤ blen
        omega
      · show ((len' : Int) + 1 - 1) % 3 = 0
        omega
      · intro init
        show store init (w' ++ [(len', 0)]) ((len' : Int) + 1 - 1).toNat = 0
        rw [Int.add_sub_cancel, Int.toNat_ofNat]
        exact store_last _ _ _ _

/-- An instance of C18: `TWFu` with `blen = 1` stores only the terminator, at
index 0. -/
theorem uh_b64decode_in_bounds_witness :
    (1 : Int) ≤ 1 ∧
    ∃ o, uh_b64decode 1 [84, 87, 70, 117, 0] 4 = some o ∧
      (∀ p ∈ o.writes, (p.1 : Int) < 1) ∧ 1 ≤ o.ret ∧ o.ret ≤ 1 ∧
      (o.ret - 1) % 3 = 0 ∧ ∀ init, store init o.writes (o.ret - 1).toNat = 0 :=
  ⟨by decide,
   ((uh_b64decode_in_bounds 1 [84, 87, 70, 117, 0] 4 (by decide)).1 (by decide)).imp
     (fun o ho => ⟨ho, (uh_b64decode_in_bounds 1 [84, 87, 70, 117, 0] 4 (by decide)).2 o ho⟩)⟩


end OpenNDS
